import Mathlib

/-!
# Rayshell: a shallow embedding of `rayshell.c`

The development models the parent shell process of `src/rayshell.c`:

* C strings are lists of characters (`CStr`);
* the process-wide variables (`history`, `historyCount`, `interrupt`, `errno`, the working
  directory, the `RLIMIT_DATA` pair, the number of unreaped children) are the fields of `Shell`;
* what the operating system answers (fork results, `chdir`, the home directory lookups) and the
  indeterminate initial contents of the two stack arrays are the fields of `Env`;
* `runCommand` returns the store it leaves, the calls the parent made, in order, and how the call
  ended: a return code, or one of the two undefined behaviours the code can reach (a null pointer
  handed to `strcmp`, a write past the end of a 256-slot argument array).
-/

namespace Rayshell

/-- A C string: its characters, without the terminating NUL. -/
abbrev CStr := List Char

/-- Slots of the history ring: `#define HISTORY_LIMIT 100`. -/
def HISTORY_LIMIT : Nat := 100

/-- Slots of each argument array: `char *firstPipeArr[256]`, `char *secondPipeArr[256]`. -/
def ARGV_SLOTS : Nat := 256

/-- Largest `unsigned long` (64 bits); it is also `RLIM_INFINITY`. -/
def ULONG_MAX : Nat := 2 ^ 64 - 1

/-- The value of `RLIM_INFINITY` for a 64-bit `rlim_t`. -/
def RLIM_INFINITY : Nat := ULONG_MAX

/-- The `errno` value `ERANGE`. -/
def ERANGE : Nat := 34

/-- The `errno` value `EINVAL`. -/
def EINVAL : Nat := 22

/-- The `errno` value `ECHILD`. -/
def ECHILD : Nat := 10

/-- The `errno` value `EAGAIN`. -/
def EAGAIN : Nat := 11

/-- The pipe separator token compared against with `strcmp("|", p)`. -/
def pipeTok : CStr := ['|']

/-- Return codes of the shell's functions. -/
inductive Ret where
  | EXIT_SUCCESS
  | EXIT_FAILURE
  deriving DecidableEq

/-- The fixed messages the parent prints. -/
inductive Msg where
  | needFifo
  | forkError
  | limitInvalid (arg : CStr)
  | limitFailed
  | chdirFailed
  | quitPrompt
  deriving DecidableEq

/-- What a forked child goes on to do. -/
inductive Child where
  /-- The child calls `displayHistory()` and exits; `listing` is what it prints. -/
  | showHistory (listing : Option (List (Nat × CStr)))
  /-- First child: `execvp(firstPipeArr[0], firstPipeArr)`, standard output sent to the FIFO
  when `toFifo`. -/
  | execFirst (toFifo : Bool) (file : CStr) (argv : List CStr)
  /-- Second child: `execvp(secondPipeArr[0], secondPipeArr)` with standard input from the
  FIFO; `file` is `none` when `secondPipeArr[0]` is null. -/
  | execSecond (file : Option CStr) (argv : List CStr)
  deriving DecidableEq

/-- Calls made by the parent process, in the order it makes them. -/
inductive Event where
  | print (m : Msg)
  | changeDirectory (path : Option CStr)
  | limit (arg : CStr)
  | fork (child : Child) (spawned : Bool)
  | wait (reaped : Bool)
  deriving DecidableEq

/-- How a call of `runCommand` ends. -/
inductive Outcome where
  | returned (code : Ret)
  /-- `strcmp(firstPipeArr[0], ...)` with `firstPipeArr[0] == NULL`. -/
  | nullDeref
  /-- A write `arr[index] = ...` with `index` outside the 256 slots; `second` tells the array. -/
  | outOfBounds (second : Bool) (index : Nat)
  deriving DecidableEq

/-- The process-wide state of the parent shell. -/
structure Shell where
  /-- The array `static char *history[HISTORY_LIMIT]`. -/
  history : Nat → Option CStr
  /-- The index `historyCount`. -/
  historyCount : Nat
  /-- The flag `interrupt`. -/
  interrupt : Bool
  /-- Whether SIGINT is bound to `interruptHandler` (`true`) or to `SIG_IGN` (`false`). -/
  sigintArmed : Bool
  /-- The C library's `errno`. -/
  errno : Nat
  /-- The working directory of the process. -/
  cwd : CStr
  /-- The soft `RLIMIT_DATA` limit. -/
  rlimCur : Nat
  /-- The hard `RLIMIT_DATA` limit. -/
  rlimMax : Nat
  /-- Children forked and not yet waited for. -/
  children : Nat

/-- What the surroundings answer during one call of `runCommand`. -/
structure Env where
  /-- Whether the first `fork()` succeeds. -/
  forkOne : Bool
  /-- Whether the second `fork()` succeeds. -/
  forkTwo : Bool
  /-- The answer of `chdir(path)` from working directory `cwd`: the new directory, or `errno`. -/
  chdir : CStr → CStr → Except Nat CStr
  /-- The answer of `getenv("Home")`. -/
  getenvHome : Option CStr
  /-- The `pw_dir` of `getpwuid(getuid())`, `none` when it returns null. -/
  pwDir : Option CStr
  /-- Indeterminate initial contents of `firstPipeArr`. -/
  stackFirst : Nat → Option CStr
  /-- Indeterminate initial contents of `secondPipeArr`. -/
  stackSecond : Nat → Option CStr

/-- The shell at program start: `history = {NULL}`, `historyCount = 0`, `interrupt = 0`,
SIGINT bound to the handler by `main`. -/
def Shell.init (cwd : CStr) (cur max : Nat) : Shell :=
  { history := fun _ => none, historyCount := 0, interrupt := false, sigintArmed := true,
    errno := 0, cwd := cwd, rlimCur := cur, rlimMax := max, children := 0 }

/-! ## History ring -/

/-- Lines 156-157 of `runCommand`:
`history[historyCount] = strdup(command); historyCount = (historyCount + 1) % HISTORY_LIMIT;`. -/
def recordHistory (sh : Shell) (command : CStr) : Shell :=
  { sh with
    history := Function.update sh.history sh.historyCount (some command)
    historyCount := (sh.historyCount + 1) % HISTORY_LIMIT }

/-- The `do ... while (current != historyCount)` loop of `displayHistory`; `none` when the fuel
runs out before the loop condition fails. -/
def displayLoop (history : Nat → Option CStr) (historyCount : Nat) :
    Nat → Nat → Nat → Option (List (Nat × CStr))
  | 0, _, _ => none
  | fuel + 1, current, historyNumber =>
    let next := (current + 1) % HISTORY_LIMIT
    match history current with
    | some line =>
      if next ≠ historyCount then
        (displayLoop history historyCount fuel next (historyNumber + 1)).map
          (fun rest => (historyNumber, line) :: rest)
      else some [(historyNumber, line)]
    | none =>
      if next ≠ historyCount then displayLoop history historyCount fuel next historyNumber
      else some []

/-- The function `displayHistory`: the pairs (number, text) it prints, in order. -/
def displayHistory (sh : Shell) : Option (List (Nat × CStr)) :=
  displayLoop sh.history sh.historyCount HISTORY_LIMIT sh.historyCount 1

/-! ## The builtins -/

/-- The system call `chdir(path)`; its result is discarded by the caller, `errno` is not. -/
def sysChdir (env : Env) (sh : Shell) (path : CStr) : Shell :=
  match env.chdir sh.cwd path with
  | .ok dir => { sh with cwd := dir }
  | .error e => { sh with errno := e }

/-- The function `changeDirectory`. -/
def changeDirectory (env : Env) (sh : Shell) (path : Option CStr) : Shell × List Event × Ret :=
  if path = none ∨ path = some ['~'] then
    match env.getenvHome with
    | some homeDir => (sysChdir env sh homeDir, [], .EXIT_SUCCESS)
    | none =>
      match env.pwDir with
      | some homeDir => (sysChdir env sh homeDir, [], .EXIT_SUCCESS)
      | none => (sh, [.print .chdirFailed], .EXIT_FAILURE)
  else
    match path with
    | some p => (sysChdir env sh p, [], .EXIT_SUCCESS)
    | none => (sh, [], .EXIT_SUCCESS)

/-- The C library's `isspace` in the C locale. -/
def isspace (c : Char) : Bool :=
  c.toNat = 32 || (9 ≤ c.toNat && c.toNat ≤ 13)

/-- The value of a character as a digit, letters counting from ten. -/
def digitVal (c : Char) : Option Nat :=
  if 48 ≤ c.toNat ∧ c.toNat ≤ 57 then some (c.toNat - 48)
  else if 97 ≤ c.toNat ∧ c.toNat ≤ 122 then some (c.toNat - 97 + 10)
  else if 65 ≤ c.toNat ∧ c.toNat ≤ 90 then some (c.toNat - 65 + 10)
  else none

/-- The value of `c` as a digit of base `base`, if it is one. -/
def digitIn (base : Nat) (c : Char) : Option Nat :=
  match digitVal c with
  | some d => if d < base then some d else none
  | none => none

/-- Reads the longest run of base-`base` digits: the value read so far, the number of digits
read so far, and the unread rest. -/
def scanDigits (base : Nat) : List Char → Nat → Nat → Nat × Nat × List Char
  | [], acc, n => (acc, n, [])
  | c :: cs, acc, n =>
    match digitIn base c with
    | some d => scanDigits base cs (acc * base + d) (n + 1)
    | none => (acc, n, c :: cs)

/-- What `strtoul(nptr, &endptr, 0)` reports. -/
structure Strtoul where
  /-- The returned `unsigned long`. -/
  value : Nat
  /-- The string `endptr` points to. -/
  rest : CStr
  /-- Whether a conversion was performed, that is `endptr != nptr`. -/
  converted : Bool
  /-- Whether the call set `errno` to `ERANGE`. -/
  erange : Bool
  deriving DecidableEq

/-- The report of `strtoul` once the digits are read: `v` their value, `n` their number, `rest`
what follows them. -/
def strtoulReport (nptr : CStr) (neg : Bool) (v n : Nat) (rest : CStr) : Strtoul :=
  if n = 0 then { value := 0, rest := nptr, converted := false, erange := false }
  else if v > ULONG_MAX then { value := ULONG_MAX, rest := rest, converted := true, erange := true }
  else { value := if neg then (2 ^ 64 - v) % 2 ^ 64 else v, rest := rest, converted := true,
         erange := false }

/-- The C library's `strtoul(nptr, &endptr, 0)` on 64-bit `unsigned long`: leading white space,
an optional sign, base sixteen after `0x`/`0X` followed by a hexadecimal digit, base eight after
`0`, base ten otherwise; a negated result when the sign is `-`; `ULONG_MAX` and `ERANGE` when the
digits exceed `ULONG_MAX`; no conversion (`endptr == nptr`, value 0) without a digit. -/
def strtoul (nptr : CStr) : Strtoul :=
  let s1 := nptr.dropWhile isspace
  let neg : Bool := s1.head? = some '-'
  let s2 := if s1.head? = some '-' ∨ s1.head? = some '+' then s1.tail else s1
  let hex : Bool :=
    match s2 with
    | z :: x :: h :: _ => z = '0' && (x = 'x' || x = 'X') && (digitIn 16 h).isSome
    | _ => false
  let base : Nat := if hex then 16 else if s2.head? = some '0' then 8 else 10
  let s3 := if hex then s2.drop 2 else s2
  match scanDigits base s3 0 0 with
  | (v, n, rest) => strtoulReport nptr neg v n rest

/-- Conversion of an `unsigned long` to `long` (two's complement, 64 bits). -/
def toLong (v : Nat) : Int :=
  if v < 2 ^ 63 then (v : Int) else (v : Int) - 2 ^ 64

/-- Conversion of a `long` to the unsigned 64-bit `rlim_t`. -/
def toRlim (l : Int) : Nat :=
  (l % 2 ^ 64).toNat

/-- The function `limit`. `errno` is the process-wide one: `strtoul` writes it only when it
overflows, and `limit` never clears it before the call. -/
def limit (sh : Shell) (userInput : CStr) : Shell × List Event × Ret :=
  let r := strtoul userInput
  let memoryLimit : Int := toLong r.value
  let sh1 : Shell := if r.erange then { sh with errno := ERANGE } else sh
  if r.converted = false ∨ r.rest ≠ [] ∨ sh1.errno = ERANGE then
    (sh1, [.print (.limitInvalid userInput)], .EXIT_FAILURE)
  else
    -- getrlimit(RLIMIT_DATA, &old); new.rlim_cur = memoryLimit; new.rlim_max = old.rlim_max
    let newCur := toRlim memoryLimit
    let newMax := sh1.rlimMax
    -- setrlimit fails with EINVAL when the soft limit exceeds the hard one
    if newCur > newMax then
      ({ sh1 with errno := EINVAL }, [.print .limitFailed], .EXIT_FAILURE)
    else
      ({ sh1 with rlimCur := newCur, rlimMax := newMax }, [], .EXIT_SUCCESS)

/-! ## Tokenizer -/

/-- One call of `strtok` with delimiter `" "` on the unread part `s` of the line: it skips the
leading spaces, returns the null pointer (`none`) if nothing is left, and otherwise returns the
run of characters up to the next space together with what follows that space. -/
def strtok (s : List Char) : Option (CStr × List Char) :=
  match s.dropWhile (fun c => c = ' ') with
  | [] => none
  | c :: cs =>
    some ((c :: cs).takeWhile (fun x => x ≠ ' '), ((c :: cs).dropWhile (fun x => x ≠ ' ')).drop 1)

/-- The tokens that `strtok(command, " ")` followed by `strtok(NULL, " ")` return until the
null pointer: the maximal runs of characters other than the space, in order. `cur` is the token
being read, most recent character first. -/
def strtokAll : List Char → List Char → List CStr
  | [], cur => if cur = [] then [] else [cur.reverse]
  | c :: cs, cur =>
    if c = ' ' then
      (if cur = [] then strtokAll cs [] else cur.reverse :: strtokAll cs [])
    else strtokAll cs (c :: cur)

/-- The tokens of a command line. -/
def tokens (command : CStr) : List CStr := strtokAll command []

/-- The local variables of the tokenizer loop of `runCommand`. -/
structure Vectors where
  firstPipeArr : Nat → Option CStr
  secondPipeArr : Nat → Option CStr
  isPiped : Bool
  currentIndex : Nat

/-- How the tokenizer of `runCommand` (lines 159-191) ends. -/
inductive Tokenized where
  /-- Both the loop and the final null write completed, every write inside its array. -/
  | done (v : Vectors)
  /-- A `|` was met with `fifoPassed == 0`: the early `return EXIT_FAILURE`. -/
  | noFifo
  /-- A write at `index`, outside the 256 slots, to the first or the second array. -/
  | overflow (second : Bool) (index : Nat)

/-- The `while (p != NULL)` loop of `runCommand` run over the tokens `strtok` yields. -/
def tokenLoop (fifoPassed : Bool) : List CStr → Vectors → Tokenized
  | [], v => .done v
  | p :: ps, v =>
    if p = pipeTok then
      if fifoPassed = false then .noFifo
      else if v.currentIndex < ARGV_SLOTS then
        tokenLoop fifoPassed ps
          { v with firstPipeArr := Function.update v.firstPipeArr v.currentIndex none
                   currentIndex := 0
                   isPiped := true }
      else .overflow false v.currentIndex
    else if v.isPiped then
      if v.currentIndex < ARGV_SLOTS then
        tokenLoop fifoPassed ps
          { v with secondPipeArr := Function.update v.secondPipeArr v.currentIndex (some p)
                   currentIndex := v.currentIndex + 1 }
      else .overflow true v.currentIndex
    else
      if v.currentIndex < ARGV_SLOTS then
        tokenLoop fifoPassed ps
          { v with firstPipeArr := Function.update v.firstPipeArr v.currentIndex (some p)
                   currentIndex := v.currentIndex + 1 }
      else .overflow false v.currentIndex

/-- The null write that follows the loop (lines 186-191). -/
def terminate (v : Vectors) : Tokenized :=
  if v.isPiped then
    if v.currentIndex < ARGV_SLOTS then
      .done { v with secondPipeArr := Function.update v.secondPipeArr v.currentIndex none }
    else .overflow true v.currentIndex
  else
    if v.currentIndex < ARGV_SLOTS then
      .done { v with firstPipeArr := Function.update v.firstPipeArr v.currentIndex none }
    else .overflow false v.currentIndex

/-- The tokenizer of `runCommand` on the tokens of a line, the arrays starting from whatever the
stack holds, `isPiped = 0`, `currentIndex = 0`. -/
def tokenize (env : Env) (fifoPassed : Bool) (toks : List CStr) : Tokenized :=
  match tokenLoop fifoPassed toks
      { firstPipeArr := env.stackFirst, secondPipeArr := env.stackSecond,
        isPiped := false, currentIndex := 0 } with
  | .done v => terminate v
  | .noFifo => .noFifo
  | .overflow s i => .overflow s i

/-- The strings `execvp` finds in an argument array: those from `index` up to the first null
pointer, reading at most `fuel` slots. -/
def argvFrom (arr : Nat → Option CStr) : Nat → Nat → List CStr
  | 0, _ => []
  | fuel + 1, index =>
    match arr index with
    | none => []
    | some t => t :: argvFrom arr fuel (index + 1)

/-- The argument vector held by a 256-slot array. -/
def argvOf (arr : Nat → Option CStr) : List CStr := argvFrom arr ARGV_SLOTS 0

/-! ## runCommand -/

/-- What one call of `runCommand` leaves behind. -/
structure Result where
  /-- The store when the call ended. -/
  shell : Shell
  /-- The calls the parent made, in order. -/
  trace : List Event
  /-- How the call ended. -/
  outcome : Outcome

/-- The system call `wait(NULL)`: reaps a child if there is one, fails with `ECHILD` if not. -/
def sysWait (sh : Shell) : Shell × Event :=
  if sh.children > 0 then ({ sh with children := sh.children - 1 }, .wait true)
  else ({ sh with errno := ECHILD }, .wait false)

/-- Lines 206-259 of `runCommand`: the forks and the waits. -/
def spawn (env : Env) (sh : Shell) (v : Vectors) (arg0 : CStr) : Result :=
  let childOne : Child :=
    if v.isPiped = false ∧ arg0 = "history".toList ∧ v.firstPipeArr 1 = none then
      .showHistory (displayHistory sh)
    else .execFirst v.isPiped arg0 (argvOf v.firstPipeArr)
  if env.forkOne = false then
    { shell := { sh with errno := EAGAIN },
      trace := [.fork childOne false, .print .forkError],
      outcome := .returned .EXIT_FAILURE }
  else
    let sh1 : Shell := { sh with children := sh.children + 1 }
    if v.isPiped then
      let childTwo : Child := .execSecond (v.secondPipeArr 0) (argvOf v.secondPipeArr)
      if env.forkTwo = false then
        { shell := { sh1 with errno := EAGAIN },
          trace := [.fork childOne true, .fork childTwo false, .print .forkError],
          outcome := .returned .EXIT_FAILURE }
      else
        let sh2 : Shell := { sh1 with children := sh1.children + 1 }
        let w1 := sysWait sh2
        let w2 := sysWait w1.1
        { shell := w2.1,
          trace := [.fork childOne true, .fork childTwo true, w1.2, w2.2],
          outcome := .returned .EXIT_SUCCESS }
    else
      let w1 := sysWait sh1
      let w2 := sysWait w1.1
      { shell := w2.1,
        trace := [.fork childOne true, w1.2, w2.2],
        outcome := .returned .EXIT_SUCCESS }

/-- Lines 197-259 of `runCommand`: the builtin tests on `firstPipeArr`, then the forks. -/
def dispatch (env : Env) (sh : Shell) (v : Vectors) : Result :=
  match v.firstPipeArr 0 with
  | none => { shell := sh, trace := [], outcome := .nullDeref }
  | some arg0 =>
    if (arg0 = "chdir".toList ∨ arg0 = "cd".toList) ∧ v.firstPipeArr 2 = none then
      let r := changeDirectory env sh (v.firstPipeArr 1)
      { shell := r.1, trace := .changeDirectory (v.firstPipeArr 1) :: r.2.1,
        outcome := .returned .EXIT_SUCCESS }
    else
      match v.firstPipeArr 1 with
      | some arg1 =>
        if arg0 = "limit".toList ∧ v.firstPipeArr 2 = none then
          let r := limit sh arg1
          { shell := r.1, trace := .limit arg1 :: r.2.1, outcome := .returned .EXIT_SUCCESS }
        else spawn env sh v arg0
      | none => spawn env sh v arg0

/-- The function `runCommand(command, fifoPath, fifoPassed)`. -/
def runCommand (env : Env) (sh : Shell) (command : CStr) (fifoPassed : Bool) : Result :=
  let sh1 := recordHistory sh command
  match tokenize env fifoPassed (tokens command) with
  | .noFifo =>
    { shell := sh1, trace := [.print .needFifo], outcome := .returned .EXIT_FAILURE }
  | .overflow s i => { shell := sh1, trace := [], outcome := .outOfBounds s i }
  | .done v => dispatch env sh1 v

/-- The store after the lines of `cmds` were submitted to `runCommand` one after another, each
with its own surroundings. A call that comes back with a return code passes its store on to the
next line; a call that runs into undefined behaviour ends the process, no further line is
submitted and there is no store afterwards (`none`). -/
def runCommands (fifoPassed : Bool) : Shell → List (Env × CStr) → Option Shell
  | sh, [] => some sh
  | sh, (env, command) :: rest =>
    match (runCommand env sh command fifoPassed).outcome with
    | .returned _ => runCommands fifoPassed (runCommand env sh command fifoPassed).shell rest
    | .nullDeref => none
    | .outOfBounds _ _ => none

/-- Whether `runCommand` comes back from this line with a return code: the tokenizer rejects the
line for want of a FIFO, or it completes within the arrays and leaves a string in
`firstPipeArr[0]`. -/
def survives (env : Env) (fifoPassed : Bool) (command : CStr) : Bool :=
  match tokenize env fifoPassed (tokens command) with
  | .noFifo => true
  | .overflow _ _ => false
  | .done v => (v.firstPipeArr 0).isSome

/-! ## The interrupt protocol and the read-eval loop -/

/-- The function `interruptHandler` run on delivery of SIGINT. -/
def interruptHandler (sh : Shell) : Shell × List Event :=
  ({ sh with sigintArmed := false, interrupt := true }, [.print .quitPrompt])

/-- Delivery of SIGINT to the parent: the handler runs unless the signal is ignored. -/
def deliverSigint (sh : Shell) : Shell × List Event :=
  if sh.sigintArmed then interruptHandler sh else (sh, [])

/-- How one iteration of the `do ... while` loop of `main` ends. -/
inductive Control where
  /-- The loop condition holds: another line is read. -/
  | next
  /-- The `break` on a confirmed quit. -/
  | quit
  /-- The loop condition `endOfFile != 0` fails. -/
  | endOfInput
  /-- The call of `runCommand` ran into undefined behaviour. -/
  | crashed
  deriving DecidableEq

/-- What one iteration of the loop of `main` leaves behind. -/
structure Step where
  /-- The store after the iteration. -/
  shell : Shell
  /-- The result of `runCommand`, when the iteration called it. -/
  ran : Option Result
  /-- How the iteration ended. -/
  control : Control

/-- One iteration of the `do ... while (endOfFile != 0)` loop of `main`, after `readLine`
returned `userInput` and left `endOfFile` zero (`atEnd`) or not. -/
def mainStep (env : Env) (fifoPath : Option CStr) (sh : Shell) (userInput : CStr)
    (atEnd : Bool) : Step :=
  if userInput.length > 0 ∧ sh.interrupt = false then
    let r := runCommand env sh userInput fifoPath.isSome
    match r.outcome with
    | .returned _ =>
      { shell := r.shell, ran := some r, control := if atEnd then .endOfInput else .next }
    | _ => { shell := r.shell, ran := some r, control := .crashed }
  else if sh.interrupt then
    if userInput = ['y'] ∨ userInput = ['Y'] then
      { shell := sh, ran := none, control := .quit }
    else
      { shell := { sh with sigintArmed := true, interrupt := false }, ran := none,
        control := if atEnd then .endOfInput else .next }
  else
    { shell := sh, ran := none, control := if atEnd then .endOfInput else .next }

/-! ## Vocabulary of the statements -/

/-- A listing numbered from `n` on, the way `displayHistory` numbers what it prints. -/
def numbered : Nat → List CStr → List (Nat × CStr)
  | _, [] => []
  | n, line :: rest => (n, line) :: numbered (n + 1) rest

/-- The ring read the way `displayHistory` walks it: the hundred slots from `historyCount` on,
wrapping around. -/
def ringView (sh : Shell) : List (Option CStr) :=
  (List.range HISTORY_LIMIT).map (fun k => sh.history ((sh.historyCount + k) % HISTORY_LIMIT))

/-- Surroundings in which every fork succeeds, `chdir` always succeeds, the home directory is
known and the stack arrays start out null. -/
def Env.calm : Env :=
  { forkOne := true, forkTwo := true, chdir := fun _ p => .ok p, getenvHome := none,
    pwDir := some "/root".toList, stackFirst := fun _ => none, stackSecond := fun _ => none }

/-- A shell at start in the root directory with both data-segment limits unlimited. -/
def Shell.fresh : Shell := Shell.init ['/'] RLIM_INFINITY RLIM_INFINITY

/-- Surroundings like `Env.calm` in which every fork fails. -/
def Env.forkless : Env := { Env.calm with forkOne := false, forkTwo := false }

/-- The array `arr` after the strings of `ts` were stored in consecutive slots from `k` on. -/
def writeRun (arr : Nat → Option CStr) : Nat → List CStr → Nat → Option CStr
  | _, [] => arr
  | k, t :: ts => writeRun (Function.update arr k (some t)) (k + 1) ts

/-- The token sequence made of the given stages with one `|` token between neighbours. -/
def joinStages : List (List CStr) → List CStr
  | [] => []
  | [s] => s
  | s :: s' :: rest => s ++ pipeTok :: joinStages (s' :: rest)

/-- The first-stage argument vector the tokenizer produced, if it completed. -/
def Tokenized.firstArgv : Tokenized → Option (List CStr)
  | .done v => some (argvOf v.firstPipeArr)
  | _ => none

/-- The second-stage argument vector the tokenizer produced, if it completed with a pipe. -/
def Tokenized.secondArgv : Tokenized → Option (List CStr)
  | .done v => if v.isPiped then some (argvOf v.secondPipeArr) else none
  | _ => none

/-- The array and index of the out-of-bounds write the tokenizer ran into, if it did. -/
def Tokenized.fault : Tokenized → Option (Bool × Nat)
  | .overflow second index => some (second, index)
  | _ => none

/-- A command line of `n` one-letter tokens `a`, each followed by a space. -/
def manyTokens (n : Nat) : CStr := (List.replicate n ['a', ' ']).flatten

set_option maxRecDepth 1000000

/-! ## The history ring -/

theorem displayLoop_slots (h : Nat → Option CStr) (count : Nat) (hc : count < 100) :
    ∀ (fuel k num : Nat), fuel + k = 100 → 1 ≤ fuel →
      displayLoop h count fuel ((count + k) % 100) num
        = some (numbered num
            ((List.range' k fuel).filterMap (fun j => h ((count + j) % 100)))) := by
  intro fuel
  induction fuel with
  | zero => intro k num _ h1; omega
  | succ f ih =>
    intro k num hk _
    have hnext : ((count + k) % 100 + 1) % 100 = (count + (k + 1)) % 100 := by omega
    rw [List.range'_succ, List.filterMap_cons]
    unfold displayLoop
    simp only [HISTORY_LIMIT, hnext]
    by_cases hf : f = 0
    · subst hf
      have hwrap : (count + (k + 1)) % 100 = count := by omega
      cases hslot : h ((count + k) % 100) <;> simp [hwrap, numbered]
    · have hno : (count + (k + 1)) % 100 ≠ count := by omega
      cases hslot : h ((count + k) % 100) with
      | none => simp [hno, ih (k + 1) num (by omega) (by omega)]
      | some line =>
        simp [hno, ih (k + 1) (num + 1) (by omega) (by omega), numbered]

theorem displayHistory_eq_ringView (sh : Shell) (hc : sh.historyCount < 100) :
    displayHistory sh = some (numbered 1 ((ringView sh).filterMap id)) := by
  have h := displayLoop_slots sh.history sh.historyCount hc 100 0 1 (by omega) (by omega)
  have h0 : (sh.historyCount + 0) % 100 = sh.historyCount := by omega
  rw [h0] at h
  unfold displayHistory ringView
  simp only [HISTORY_LIMIT]
  rw [h, List.filterMap_map, List.range_eq_range']
  rfl

theorem ringView_length (sh : Shell) : (ringView sh).length = 100 := by
  simp [ringView, HISTORY_LIMIT]

theorem ringView_getElem (sh : Shell) (i : Nat) (hi : i < (ringView sh).length) :
    (ringView sh)[i] = sh.history ((sh.historyCount + i) % 100) := by
  unfold ringView
  rw [List.getElem_map, List.getElem_range]
  rfl

theorem ringView_recordHistory (sh : Shell) (command : CStr) (hc : sh.historyCount < 100) :
    ringView (recordHistory sh command) = (ringView sh).tail ++ [some command] := by
  apply List.ext_getElem
  · simp [ringView_length]
  · intro i h1 h2
    have hi : i < 100 := by rw [ringView_length] at h1; exact h1
    have hcount : (recordHistory sh command).historyCount = (sh.historyCount + 1) % 100 := rfl
    have hhist : (recordHistory sh command).history
        = Function.update sh.history sh.historyCount (some command) := rfl
    rw [ringView_getElem, hcount, hhist]
    by_cases h99 : i = 99
    · subst h99
      have hw : ((sh.historyCount + 1) % 100 + 99) % 100 = sh.historyCount := by omega
      have hlen : (ringView sh).tail.length ≤ 99 := by
        rw [List.length_tail, ringView_length]
      rw [List.getElem_append_right hlen, hw, Function.update_same]
      simp [List.length_tail, ringView_length]
    · have hlt : i < (ringView sh).tail.length := by
        rw [List.length_tail, ringView_length]; omega
      have hw : ((sh.historyCount + 1) % 100 + i) % 100 = (sh.historyCount + (i + 1)) % 100 := by
        omega
      have hne : (sh.historyCount + (i + 1)) % 100 ≠ sh.historyCount := by omega
      rw [List.getElem_append_left hlt, hw, Function.update_noteq hne, List.getElem_tail,
        ringView_getElem]

theorem recordHistory_count_lt (sh : Shell) (command : CStr) :
    (recordHistory sh command).historyCount < 100 := by
  simp only [recordHistory, HISTORY_LIMIT]
  omega

theorem sysChdir_ring (env : Env) (sh : Shell) (p : CStr) :
    (sysChdir env sh p).history = sh.history ∧
      (sysChdir env sh p).historyCount = sh.historyCount := by
  unfold sysChdir
  split <;> exact ⟨rfl, rfl⟩

theorem changeDirectory_ring (env : Env) (sh : Shell) (path : Option CStr) :
    (changeDirectory env sh path).1.history = sh.history ∧
      (changeDirectory env sh path).1.historyCount = sh.historyCount := by
  unfold changeDirectory
  split
  · split
    · exact sysChdir_ring env sh _
    · split
      · exact sysChdir_ring env sh _
      · exact ⟨rfl, rfl⟩
  · split
    · exact sysChdir_ring env sh _
    · exact ⟨rfl, rfl⟩

theorem limit_ring (sh : Shell) (arg : CStr) :
    (limit sh arg).1.history = sh.history ∧ (limit sh arg).1.historyCount = sh.historyCount := by
  unfold limit
  simp only
  split <;> split <;> (try split) <;> exact ⟨rfl, rfl⟩

theorem sysWait_ring (sh : Shell) :
    (sysWait sh).1.history = sh.history ∧ (sysWait sh).1.historyCount = sh.historyCount := by
  unfold sysWait
  split <;> exact ⟨rfl, rfl⟩

theorem spawn_ring (env : Env) (sh : Shell) (v : Vectors) (arg0 : CStr) :
    (spawn env sh v arg0).shell.history = sh.history ∧
      (spawn env sh v arg0).shell.historyCount = sh.historyCount := by
  unfold spawn
  simp only
  split
  · exact ⟨rfl, rfl⟩
  · split
    · split
      · exact ⟨rfl, rfl⟩
      · refine ⟨?_, ?_⟩
        · rw [(sysWait_ring _).1, (sysWait_ring _).1]
        · rw [(sysWait_ring _).2, (sysWait_ring _).2]
    · refine ⟨?_, ?_⟩
      · rw [(sysWait_ring _).1, (sysWait_ring _).1]
      · rw [(sysWait_ring _).2, (sysWait_ring _).2]

theorem dispatch_ring (env : Env) (sh : Shell) (v : Vectors) :
    (dispatch env sh v).shell.history = sh.history ∧
      (dispatch env sh v).shell.historyCount = sh.historyCount := by
  unfold dispatch
  split
  · exact ⟨rfl, rfl⟩
  · split
    · exact changeDirectory_ring env sh _
    · split
      · split
        · exact limit_ring sh _
        · exact spawn_ring env sh v _
      · exact spawn_ring env sh v _

/-- Whatever a call of `runCommand` goes on to do, the ring it leaves is the one of lines
156-157: the raw line stored at `historyCount`, the index advanced modulo 100. -/
theorem runCommand_ring (env : Env) (sh : Shell) (command : CStr) (fifoPassed : Bool) :
    (runCommand env sh command fifoPassed).shell.history = (recordHistory sh command).history ∧
      (runCommand env sh command fifoPassed).shell.historyCount
        = (recordHistory sh command).historyCount := by
  unfold runCommand
  simp only
  split
  · exact ⟨rfl, rfl⟩
  · exact ⟨rfl, rfl⟩
  · exact dispatch_ring env _ _

theorem ringView_congr (a b : Shell) (h : a.history = b.history)
    (hc : a.historyCount = b.historyCount) : ringView a = ringView b := by
  unfold ringView
  rw [h, hc]

theorem tail_drop_snoc {α : Type} (l : List α) (x : α) (n : Nat) (h : n < l.length) :
    (l.drop n).tail ++ [x] = (l ++ [x]).drop (n + 1) := by
  rw [List.tail_drop, List.drop_append_of_le_length (by omega)]

theorem ringView_runCommands (fifoPassed : Bool) :
    ∀ (cmds : List (Env × CStr)) (sh : Shell) (done : List CStr) (last : Shell),
      sh.historyCount < 100 →
      ringView sh = (List.replicate 100 none ++ done.map some).drop done.length →
      runCommands fifoPassed sh cmds = some last →
      last.historyCount < 100 ∧
      ringView last
        = (List.replicate 100 none ++ (done ++ cmds.map Prod.snd).map some).drop
            (done ++ cmds.map Prod.snd).length := by
  intro cmds
  induction cmds with
  | nil =>
    intro sh done last hc hv hrun
    rw [runCommands, Option.some.injEq] at hrun
    subst hrun
    simpa using ⟨hc, hv⟩
  | cons c rest ih =>
    intro sh done last hc hv hrun
    obtain ⟨env, command⟩ := c
    have hr := runCommand_ring env sh command fifoPassed
    have hc1 : (runCommand env sh command fifoPassed).shell.historyCount < 100 := by
      rw [hr.2]; exact recordHistory_count_lt sh command
    have hv1 : ringView (runCommand env sh command fifoPassed).shell
        = (List.replicate 100 none ++ (done ++ [command]).map some).drop
            (done ++ [command]).length := by
      rw [ringView_congr _ _ hr.1 hr.2, ringView_recordHistory sh command hc, hv]
      rw [tail_drop_snoc _ _ _
        (by rw [List.length_append, List.length_replicate, List.length_map]; omega),
        List.map_append, List.length_append,
        List.length_singleton, List.append_assoc]
      rfl
    have hnext : runCommands fifoPassed (runCommand env sh command fifoPassed).shell rest
        = some last := by
      rw [runCommands] at hrun
      split at hrun
      · exact hrun
      · exact Option.noConfusion hrun
      · exact Option.noConfusion hrun
    have := ih (runCommand env sh command fifoPassed).shell (done ++ [command]) last hc1 hv1 hnext
    simpa [List.append_assoc] using this

theorem filterMap_ring (lines : List CStr) :
    ((List.replicate 100 none ++ lines.map some).drop lines.length).filterMap id
      = lines.drop (lines.length - 100) := by
  rw [List.drop_append_eq_append_drop, List.filterMap_append, List.drop_replicate,
    List.length_replicate, ← List.map_drop, List.filterMap_map]
  have h1 : List.filterMap id (List.replicate (100 - lines.length) (none : Option CStr)) = [] := by
    rw [List.filterMap_eq_nil_iff]
    intro a ha
    rw [List.eq_of_mem_replicate ha]
    rfl
  rw [h1]
  simp

/-- C1 (as stated, refuted). The two non-empty lines of one space and `ls` do not lead to any
listing: on the first of them `runCommand` hands the null `firstPipeArr[0]` to `strcmp`, the
iteration of `main` ends in a crash and `ls` is never submitted. The same holds when the first
line is a pipe-free line of 257 tokens, whose last token is written outside `firstPipeArr`. -/
theorem crashing_line_ends_the_history :
    (∀ c ∈ [(Env.calm, [' ']), (Env.calm, "ls".toList)], c.2 ≠ []) ∧
      (runCommand Env.calm Shell.fresh [' '] false).outcome = .nullDeref ∧
      (mainStep Env.calm none Shell.fresh [' '] false).control = .crashed ∧
      (runCommands false Shell.fresh [(Env.calm, [' ']), (Env.calm, "ls".toList)]).isSome
        = false ∧
      ((runCommands false Shell.fresh [(Env.calm, [' ']), (Env.calm, "ls".toList)]).bind
        displayHistory) ≠ some (numbered 1 [[' '], "ls".toList]) ∧
      (runCommand Env.calm Shell.fresh (manyTokens 257) false).outcome
        = .outOfBounds false 256 ∧
      (runCommands false Shell.fresh [(Env.calm, manyTokens 257), (Env.calm, "ls".toList)]).isSome
        = false := by
  decide

/-- C1 (amended). For every sequence of lines submitted to `runCommand` from program start on
which every call comes back with a return code (builtin, external command, rejected pipe or
failed fork alike), the shell has a store afterwards, and on it `displayHistory` terminates and
lists exactly the last `min N 100` submitted lines, unmodified, oldest first, numbered from 1. -/
theorem history_lists_last_hundred (fifoPassed : Bool) (cwd : CStr) (cur max : Nat)
    (cmds : List (Env × CStr))
    (hret : (runCommands fifoPassed (Shell.init cwd cur max) cmds).isSome = true) :
    (∃ last, runCommands fifoPassed (Shell.init cwd cur max) cmds = some last ∧
        displayHistory last
          = some (numbered 1 ((cmds.map Prod.snd).drop (cmds.length - 100)))) ∧
      ((cmds.map Prod.snd).drop (cmds.length - 100)).length = min cmds.length 100 := by
  have hinit : ringView (Shell.init cwd cur max)
      = (List.replicate 100 none ++ ([] : List CStr).map some).drop ([] : List CStr).length := by
    rw [List.map_nil, List.length_nil, List.drop_zero, List.append_nil, List.eq_replicate_iff]
    refine ⟨ringView_length _, ?_⟩
    intro b hb
    unfold ringView at hb
    rw [List.mem_map] at hb
    obtain ⟨k, _, hk⟩ := hb
    exact hk.symm
  obtain ⟨last, hlast⟩ := Option.isSome_iff_exists.mp hret
  have h := ringView_runCommands fifoPassed cmds (Shell.init cwd cur max) [] last
    (by simp [Shell.init]) hinit hlast
  rw [List.nil_append] at h
  refine ⟨⟨last, hlast, ?_⟩, ?_⟩
  · rw [displayHistory_eq_ringView _ h.1, h.2, filterMap_ring, List.length_map]
  · rw [List.length_drop, List.length_map]
    omega

theorem history_lists_last_hundred_witness :
    (∃ last, runCommands false (Shell.init ['/'] 4096 RLIM_INFINITY)
          [(Env.calm, "ls -l".toList), (Env.forkless, "wc".toList),
            (Env.calm, "cd /tmp".toList), (Env.calm, "a | b".toList),
            (Env.calm, "history".toList)] = some last ∧
        displayHistory last
          = some (numbered 1
              (([(Env.calm, "ls -l".toList), (Env.forkless, "wc".toList),
                (Env.calm, "cd /tmp".toList), (Env.calm, "a | b".toList),
                (Env.calm, "history".toList)].map Prod.snd).drop (5 - 100)))) ∧
      (([(Env.calm, "ls -l".toList), (Env.forkless, "wc".toList),
          (Env.calm, "cd /tmp".toList), (Env.calm, "a | b".toList),
          (Env.calm, "history".toList)].map Prod.snd).drop (5 - 100)).length = min 5 100 :=
  history_lists_last_hundred false ['/'] 4096 RLIM_INFINITY
    [(Env.calm, "ls -l".toList), (Env.forkless, "wc".toList),
      (Env.calm, "cd /tmp".toList), (Env.calm, "a | b".toList),
      (Env.calm, "history".toList)] (by decide)

/-! ## The tokenizer: reading and writing the argument arrays -/

theorem writeRun_below (ts : List CStr) :
    ∀ (arr : Nat → Option CStr) (k i : Nat), i < k → writeRun arr k ts i = arr i := by
  induction ts with
  | nil => intro arr k i _; rfl
  | cons t ts ih =>
    intro arr k i hi
    rw [writeRun, ih _ _ _ (by omega), Function.update_noteq (by omega)]

theorem writeRun_above (ts : List CStr) :
    ∀ (arr : Nat → Option CStr) (k i : Nat), k + ts.length ≤ i → writeRun arr k ts i = arr i := by
  induction ts with
  | nil => intro arr k i _; rfl
  | cons t ts ih =>
    intro arr k i hi
    rw [List.length_cons] at hi
    rw [writeRun, ih _ _ _ (by omega), Function.update_noteq (by omega)]

theorem writeRun_at (ts : List CStr) :
    ∀ (arr : Nat → Option CStr) (k j : Nat) (hj : j < ts.length),
      writeRun arr k ts (k + j) = some ts[j] := by
  induction ts with
  | nil => intro arr k j hj; simp at hj
  | cons t ts ih =>
    intro arr k j hj
    rw [writeRun]
    cases j with
    | zero => rw [writeRun_below _ _ _ _ (by omega)]; simp
    | succ j =>
      have := ih (Function.update arr k (some t)) (k + 1) j (by simpa using hj)
      rw [show k + (j + 1) = k + 1 + j by omega, this]
      simp

/-- An array that holds the strings of `ts` from slot `k` on, then a null pointer, is read by
`execvp` as `ts`. -/
theorem argvFrom_of_holds (arr : Nat → Option CStr) (ts : List CStr) :
    ∀ (k fuel : Nat), ts.length < fuel →
      (∀ (j : Nat) (hj : j < ts.length), arr (k + j) = some ts[j]) →
      arr (k + ts.length) = none → argvFrom arr fuel k = ts := by
  induction ts with
  | nil =>
    intro k fuel hf _ hnull
    cases fuel with
    | zero => simp at hf
    | succ f => rw [argvFrom]; simp at hnull; rw [hnull]
  | cons t ts ih =>
    intro k fuel hf hold hnull
    cases fuel with
    | zero => simp at hf
    | succ f =>
      have h0 := hold 0 (by simp)
      simp at h0
      rw [argvFrom, h0]
      simp only
      rw [ih (k + 1) f (by simpa using hf)]
      · intro j hj
        have := hold (j + 1) (by simpa using hj)
        rw [show k + 1 + j = k + (j + 1) by omega, this]
        simp
      · rw [show k + 1 + ts.length = k + (t :: ts).length by simp; omega]
        exact hnull

theorem argvOf_terminated (arr : Nat → Option CStr) (ts : List CStr) (hlen : ts.length ≤ 255) :
    argvOf (Function.update (writeRun arr 0 ts) ts.length none) = ts := by
  unfold argvOf
  apply argvFrom_of_holds _ _ 0 ARGV_SLOTS (by simp [ARGV_SLOTS]; omega)
  · intro j hj
    rw [Function.update_noteq (by omega)]
    exact writeRun_at ts arr 0 j hj
  · rw [Nat.zero_add, Function.update_same]

theorem tokenLoop_first_run (fifoPassed : Bool) (ts : List CStr) :
    ∀ (rest : List CStr) (f s : Nat → Option CStr) (i : Nat), (∀ t ∈ ts, t ≠ pipeTok) →
      i + ts.length ≤ 256 →
      tokenLoop fifoPassed (ts ++ rest) ⟨f, s, false, i⟩
        = tokenLoop fifoPassed rest ⟨writeRun f i ts, s, false, i + ts.length⟩ := by
  induction ts with
  | nil => intro rest f s i _ _; rfl
  | cons t ts ih =>
    intro rest f s i hfree hcap
    rw [List.length_cons] at hcap
    have ht : t ≠ pipeTok := hfree t (by simp)
    have hidx : i < ARGV_SLOTS := by simp only [ARGV_SLOTS]; omega
    rw [List.cons_append, tokenLoop, if_neg ht]
    simp only [Bool.false_eq_true, if_false, if_pos hidx]
    rw [ih rest _ _ _ (fun t' h' => hfree t' (by simp [h'])) (by omega)]
    simp only [writeRun, List.length_cons]
    congr 2
    omega

theorem tokenLoop_second_run (fifoPassed : Bool) (ts : List CStr) :
    ∀ (rest : List CStr) (f s : Nat → Option CStr) (i : Nat), (∀ t ∈ ts, t ≠ pipeTok) →
      i + ts.length ≤ 256 →
      tokenLoop fifoPassed (ts ++ rest) ⟨f, s, true, i⟩
        = tokenLoop fifoPassed rest ⟨f, writeRun s i ts, true, i + ts.length⟩ := by
  induction ts with
  | nil => intro rest f s i _ _; rfl
  | cons t ts ih =>
    intro rest f s i hfree hcap
    rw [List.length_cons] at hcap
    have ht : t ≠ pipeTok := hfree t (by simp)
    have hidx : i < ARGV_SLOTS := by simp only [ARGV_SLOTS]; omega
    rw [List.cons_append, tokenLoop, if_neg ht]
    simp only [if_true, if_pos hidx]
    rw [ih rest _ _ _ (fun t' h' => hfree t' (by simp [h'])) (by omega)]
    simp only [writeRun, List.length_cons]
    congr 2
    omega

/-! ## The tokenizer: stages -/

theorem tokenLoop_piped_stages :
    ∀ (stages : List (List CStr)) (hne : stages ≠ []) (f sec : Nat → Option CStr),
      (∀ s ∈ stages, ∀ t ∈ s, t ≠ pipeTok) → (∀ s ∈ stages, s.length ≤ 255) →
      ∃ v', tokenLoop true (joinStages stages) ⟨f, sec, true, 0⟩ = .done v' ∧
        v'.isPiped = true ∧
        v'.currentIndex = (stages.getLast hne).length ∧
        (∀ (j : Nat) (hj : j < (stages.getLast hne).length),
          v'.secondPipeArr j = some (stages.getLast hne)[j]) ∧
        (stages.length = 1 → v'.firstPipeArr = f) := by
  intro stages
  induction stages with
  | nil => intro hne; exact absurd rfl hne
  | cons s rest ih =>
    intro hne f sec hfree hcap
    have hs : ∀ t ∈ s, t ≠ pipeTok := hfree s (by simp)
    have hslen : s.length ≤ 255 := hcap s (by simp)
    cases rest with
    | nil =>
      have hrun := tokenLoop_second_run true s [] f sec 0 hs (by omega)
      rw [List.append_nil] at hrun
      refine ⟨⟨f, writeRun sec 0 s, true, 0 + s.length⟩, ?_, rfl, ?_, ?_, fun _ => rfl⟩
      · rw [joinStages, hrun, tokenLoop]
      · simp
      · intro j hj
        have := writeRun_at s sec 0 j (by simpa using hj)
        rw [Nat.zero_add] at this
        simpa using this
    | cons s' rest' =>
      have hrun := tokenLoop_second_run true s (pipeTok :: joinStages (s' :: rest')) f sec 0 hs
        (by omega)
      have hlt : 0 + s.length < ARGV_SLOTS := by simp only [ARGV_SLOTS]; omega
      obtain ⟨v', h1, h2, h3, h4, _⟩ := ih (by simp)
        (Function.update f (0 + s.length) none) (writeRun sec 0 s)
        (fun x hx => hfree x (by simp [hx])) (fun x hx => hcap x (by simp [hx]))
      have hl : (s :: s' :: rest').getLast hne = (s' :: rest').getLast (by simp) :=
        List.getLast_cons (by simp)
      refine ⟨v', ?_, h2, ?_, ?_, ?_⟩
      · rw [joinStages, hrun, tokenLoop, if_pos rfl]
        simp only [Bool.true_eq_false, if_false, if_pos hlt]
        exact h1
      · rw [hl]; exact h3
      · intro j hj
        have hj' : j < ((s' :: rest').getLast (by simp)).length := by rw [← hl]; exact hj
        rw [h4 j hj']
        simp [hl]
      · intro hlen
        simp at hlen

/-- The tokenizer on a line without `|` whose tokens fit: the tokens in slots `0..n-1` of the
first array, the null pointer in slot `n`. -/
theorem tokenize_single (env : Env) (fifoPassed : Bool) (a : List CStr)
    (hfree : ∀ t ∈ a, t ≠ pipeTok) (hcap : a.length ≤ 255) :
    tokenize env fifoPassed a
      = .done ⟨Function.update (writeRun env.stackFirst 0 a) a.length none, env.stackSecond,
          false, a.length⟩ := by
  have hrun := tokenLoop_first_run fifoPassed a [] env.stackFirst env.stackSecond 0 hfree
    (by omega)
  rw [List.append_nil] at hrun
  have hlt : a.length < ARGV_SLOTS := by simp only [ARGV_SLOTS]; omega
  rw [tokenize, hrun, tokenLoop]
  simp only [terminate, Bool.false_eq_true, if_false, Nat.zero_add, if_pos hlt]

/-- The tokenizer, with a FIFO, on a line whose first stage `a` is followed by `|` and further
stages, all fitting: the second array holds the last stage, null-terminated; with one further
stage the first array holds `a`, null-terminated. -/
theorem tokenize_piped (env : Env) (a : List CStr) (stages : List (List CStr))
    (hne : stages ≠ []) (ha : ∀ t ∈ a, t ≠ pipeTok) (halen : a.length ≤ 255)
    (hfree : ∀ s ∈ stages, ∀ t ∈ s, t ≠ pipeTok) (hcap : ∀ s ∈ stages, s.length ≤ 255) :
    ∃ v, tokenize env true (a ++ pipeTok :: joinStages stages) = .done v ∧ v.isPiped = true ∧
      argvOf v.secondPipeArr = stages.getLast hne ∧
      (stages.length = 1 →
        v.firstPipeArr = Function.update (writeRun env.stackFirst 0 a) a.length none) := by
  have hrun := tokenLoop_first_run true a (pipeTok :: joinStages stages) env.stackFirst
    env.stackSecond 0 ha (by omega)
  have hlt : 0 + a.length < ARGV_SLOTS := by simp only [ARGV_SLOTS]; omega
  obtain ⟨v', h1, h2, h3, h4, h5⟩ := tokenLoop_piped_stages stages hne
    (Function.update (writeRun env.stackFirst 0 a) (0 + a.length) none) env.stackSecond hfree hcap
  have hlast : (stages.getLast hne).length ≤ 255 := hcap _ (List.getLast_mem hne)
  have hlt' : v'.currentIndex < ARGV_SLOTS := by rw [h3]; simp only [ARGV_SLOTS]; omega
  have hloop : tokenLoop true (a ++ pipeTok :: joinStages stages)
      ⟨env.stackFirst, env.stackSecond, false, 0⟩ = .done v' := by
    rw [hrun, tokenLoop, if_pos rfl]
    simp only [Bool.true_eq_false, if_false, if_pos hlt]
    exact h1
  refine ⟨⟨v'.firstPipeArr, Function.update v'.secondPipeArr v'.currentIndex none, v'.isPiped,
    v'.currentIndex⟩, ?_, h2, ?_, ?_⟩
  · rw [tokenize, hloop]
    simp only [terminate, h2, if_true, if_pos hlt']
  · show argvOf (Function.update v'.secondPipeArr v'.currentIndex none) = _
    unfold argvOf
    apply argvFrom_of_holds _ _ 0 ARGV_SLOTS (by simp only [ARGV_SLOTS]; omega)
    · intro j hj
      rw [Nat.zero_add, Function.update_noteq (by omega)]
      exact h4 j hj
    · rw [Nat.zero_add, h3, Function.update_same]
  · intro hlen
    show v'.firstPipeArr = _
    rw [h5 hlen, Nat.zero_add]

/-- Without a FIFO the tokenizer stops at the first `|`, provided the tokens before it fit the
first array. -/
theorem tokenize_noFifo (env : Env) (a rest : List CStr) (ha : ∀ t ∈ a, t ≠ pipeTok)
    (halen : a.length ≤ 256) : tokenize env false (a ++ pipeTok :: rest) = .noFifo := by
  have hrun := tokenLoop_first_run false a (pipeTok :: rest) env.stackFirst env.stackSecond 0 ha
    (by omega)
  rw [tokenize, hrun, tokenLoop, if_pos rfl, if_pos rfl]

/-! ## Claims about the tokenizer and the pipe check -/

/-- C2 (as stated, refuted). With a FIFO, the line `a b c | d | e` leaves `a` alone in the
first-stage vector and `e` alone in the second-stage vector: the second `|` writes a null pointer
into slot 1 of the first array and restarts the second array, so neither vector is the token
sequence before, respectively after, the first `|`. And a line with a single `|` produces no
vectors at all when 256 tokens stand on one side of it: the null pointer that ends that stage is
written at index 256 of its array. -/
theorem second_pipe_rewrites_both_vectors :
    tokens "a b c | d | e".toList
        = [['a'], ['b'], ['c'], pipeTok, ['d'], pipeTok, ['e']] ∧
      (tokenize Env.calm true (tokens "a b c | d | e".toList)).firstArgv = some [['a']] ∧
      (tokenize Env.calm true (tokens "a b c | d | e".toList)).firstArgv
        ≠ some [['a'], ['b'], ['c']] ∧
      (tokenize Env.calm true (tokens "a b c | d | e".toList)).secondArgv = some [['e']] ∧
      (tokenize Env.calm true (tokens "a b c | d | e".toList)).secondArgv
        ≠ some [['d'], pipeTok, ['e']] ∧
      (tokens (manyTokens 256 ++ "| b".toList)).count pipeTok = 1 ∧
      (tokenize Env.calm true (tokens (manyTokens 256 ++ "| b".toList))).fault
        = some (false, 256) ∧
      (tokens ("b | ".toList ++ manyTokens 256)).count pipeTok = 1 ∧
      (tokenize Env.calm true (tokens ("b | ".toList ++ manyTokens 256))).fault
        = some (true, 256) := by
  decide

/-- C2 (amended). With a FIFO, for every line with exactly one `|` token and at most 255 tokens
on either side of it, the tokenizer completes, the first-stage vector is the token sequence
before the `|` and the second-stage vector the token sequence after it. -/
theorem single_pipe_splits_stages (env : Env) (line : CStr) (a b : List CStr)
    (hline : tokens line = a ++ pipeTok :: b)
    (ha : ∀ t ∈ a, t ≠ pipeTok) (hb : ∀ t ∈ b, t ≠ pipeTok)
    (halen : a.length ≤ 255) (hblen : b.length ≤ 255) :
    (tokenize env true (tokens line)).firstArgv = some a ∧
      (tokenize env true (tokens line)).secondArgv = some b := by
  obtain ⟨v, h1, h2, h3, h4⟩ := tokenize_piped env a [b] (by simp) ha halen
    (by simpa using hb) (by simpa using hblen)
  rw [joinStages] at h1
  rw [hline, h1]
  refine ⟨?_, ?_⟩
  · simp only [Tokenized.firstArgv]
    rw [h4 rfl, argvOf_terminated _ _ halen]
  · simp only [Tokenized.secondArgv, h2, if_true]
    rw [h3]
    rfl

theorem single_pipe_splits_stages_witness :
    (tokenize Env.calm true (tokens "ls -l | wc".toList)).firstArgv
        = some ["ls".toList, "-l".toList] ∧
      (tokenize Env.calm true (tokens "ls -l | wc".toList)).secondArgv = some ["wc".toList] :=
  single_pipe_splits_stages Env.calm "ls -l | wc".toList ["ls".toList, "-l".toList]
    ["wc".toList] (by decide) (by decide) (by decide) (by decide) (by decide)

/-- C9 (as stated, refuted). A pipe-free line of exactly 256 tokens fills slots 0 to 255 of
`firstPipeArr` with its tokens; the terminating null is then written at index 256, outside the
256 slots. And on `a b c | d | e`, whose stages are short, the first vector ends up holding `a`
alone, not the three tokens of the first stage. -/
theorem terminator_of_256_tokens_out_of_bounds :
    (tokens (manyTokens 256)).length = 256 ∧
      (∀ t ∈ tokens (manyTokens 256), t ≠ pipeTok) ∧
      (tokenize Env.calm true (tokens (manyTokens 256))).fault = some (false, 256) ∧
      (tokenize Env.calm true (tokens (manyTokens 256))).firstArgv = none ∧
      tokens "a b c | d | e".toList
        = joinStages [[['a'], ['b'], ['c']], [['d']], [['e']]] ∧
      (tokenize Env.calm true (tokens "a b c | d | e".toList)).firstArgv = some [['a']] := by
  decide

/-- C9 (amended). For every line whose `|`-delimited stages have at most 255 tokens each, no
write of the tokenizer, token pointer or null pointer, goes outside the 256 slots of its array;
a line without `|` leaves exactly its tokens, null-terminated, in the first vector; with a FIFO
and a `|` the second vector holds exactly the tokens of the last stage, null-terminated, and
with exactly one `|` the first vector holds exactly the tokens of the first stage. -/
theorem stages_within_255_stay_in_bounds (env : Env) (fifoPassed : Bool) (line : CStr)
    (stages : List (List CStr)) (hne : stages ≠ [])
    (hline : tokens line = joinStages stages)
    (hfree : ∀ s ∈ stages, ∀ t ∈ s, t ≠ pipeTok)
    (hcap : ∀ s ∈ stages, s.length ≤ 255) :
    (tokenize env fifoPassed (tokens line)).fault = none ∧
      (stages.length = 1 →
        (tokenize env fifoPassed (tokens line)).firstArgv = some (stages.head hne) ∧
        (tokenize env fifoPassed (tokens line)).secondArgv = none) ∧
      (fifoPassed = true → 2 ≤ stages.length →
        (tokenize env fifoPassed (tokens line)).secondArgv = some (stages.getLast hne)) ∧
      (fifoPassed = true → stages.length = 2 →
        (tokenize env fifoPassed (tokens line)).firstArgv = some (stages.head hne)) := by
  cases stages with
  | nil => exact absurd rfl hne
  | cons a rest =>
    have ha : ∀ t ∈ a, t ≠ pipeTok := hfree a (by simp)
    have halen : a.length ≤ 255 := hcap a (by simp)
    cases rest with
    | nil =>
      rw [hline, joinStages, tokenize_single env fifoPassed a ha halen]
      refine ⟨rfl, fun _ => ⟨?_, rfl⟩, fun _ h => ?_, fun _ h => ?_⟩
      · simp only [Tokenized.firstArgv, List.head_cons]
        rw [argvOf_terminated _ _ halen]
      · simp at h
      · simp at h
    | cons b rest' =>
      rw [hline, joinStages]
      cases fifoPassed with
      | false =>
        rw [tokenize_noFifo env a (joinStages (b :: rest')) ha (by omega)]
        refine ⟨rfl, fun h => ?_, fun h => ?_, fun h => ?_⟩
        · simp at h
        · exact Bool.noConfusion h
        · exact Bool.noConfusion h
      | true =>
        obtain ⟨v, h1, h2, h3, h4⟩ := tokenize_piped env a (b :: rest') (by simp) ha halen
          (fun s hs => hfree s (by simp [hs])) (fun s hs => hcap s (by simp [hs]))
        rw [h1]
        refine ⟨rfl, fun h => ?_, fun _ _ => ?_, fun _ h => ?_⟩
        · simp at h
        · simp only [Tokenized.secondArgv, h2, if_true]
          rw [h3]
          exact congrArg some (List.getLast_cons (by simp)).symm
        · have hlen : (b :: rest').length = 1 := by simpa using h
          simp only [Tokenized.firstArgv, List.head_cons]
          rw [h4 hlen, argvOf_terminated _ _ halen]

theorem stages_within_255_stay_in_bounds_witness :
    (tokenize Env.calm true (tokens (manyTokens 255 ++ "| wc".toList))).fault = none ∧
      ([tokens (manyTokens 255), ["wc".toList]].length = 1 →
        (tokenize Env.calm true (tokens (manyTokens 255 ++ "| wc".toList))).firstArgv
          = some (tokens (manyTokens 255)) ∧
        (tokenize Env.calm true (tokens (manyTokens 255 ++ "| wc".toList))).secondArgv = none) ∧
      (true = true → 2 ≤ [tokens (manyTokens 255), ["wc".toList]].length →
        (tokenize Env.calm true (tokens (manyTokens 255 ++ "| wc".toList))).secondArgv
          = some ["wc".toList]) ∧
      (true = true → [tokens (manyTokens 255), ["wc".toList]].length = 2 →
        (tokenize Env.calm true (tokens (manyTokens 255 ++ "| wc".toList))).firstArgv
          = some (tokens (manyTokens 255))) :=
  stages_within_255_stay_in_bounds Env.calm true (manyTokens 255 ++ "| wc".toList)
    [tokens (manyTokens 255), ["wc".toList]] (by simp) (by decide) (by decide) (by decide)

/-- C4 (as stated, refuted). Without a FIFO, a line with 257 tokens before its `|` never reaches
the rejection: the 257th token is written at index 256 of `firstPipeArr`, outside the array.
With 600 tokens before the `|` the writes would run on far past both arrays. -/
theorem long_line_overflows_before_pipe_check :
    pipeTok ∈ tokens (manyTokens 257 ++ "| b".toList) ∧
      (runCommand Env.calm Shell.fresh (manyTokens 257 ++ "| b".toList) false).outcome
        = .outOfBounds false 256 ∧
      (runCommand Env.calm Shell.fresh (manyTokens 257 ++ "| b".toList) false).outcome
        ≠ .returned .EXIT_FAILURE ∧
      pipeTok ∈ tokens (manyTokens 600 ++ "| b".toList) ∧
      (runCommand Env.calm Shell.fresh (manyTokens 600 ++ "| b".toList) false).outcome
        = .outOfBounds false 256 := by
  decide

/-- C4 (amended). Without a FIFO, for every line that has a `|` token with at most 256 tokens
before the first one, `runCommand` returns failure having only recorded the line in the history
and printed the FIFO message: no fork, no `changeDirectory`, no `limit`. -/
theorem pipe_without_fifo_is_rejected (env : Env) (sh : Shell) (line : CStr)
    (a rest : List CStr) (hline : tokens line = a ++ pipeTok :: rest)
    (ha : ∀ t ∈ a, t ≠ pipeTok) (halen : a.length ≤ 256) :
    (runCommand env sh line false).outcome = .returned .EXIT_FAILURE ∧
      (runCommand env sh line false).trace = [.print .needFifo] ∧
      (runCommand env sh line false).shell = recordHistory sh line := by
  unfold runCommand
  simp only
  rw [hline, tokenize_noFifo env a rest ha halen]
  exact ⟨rfl, rfl, rfl⟩

theorem pipe_without_fifo_is_rejected_witness :
    (runCommand Env.calm Shell.fresh "cd /tmp | ls".toList false).outcome
        = .returned .EXIT_FAILURE ∧
      (runCommand Env.calm Shell.fresh "cd /tmp | ls".toList false).trace
        = [.print .needFifo] ∧
      (runCommand Env.calm Shell.fresh "cd /tmp | ls".toList false).shell
        = recordHistory Shell.fresh "cd /tmp | ls".toList :=
  pipe_without_fifo_is_rejected Env.calm Shell.fresh "cd /tmp | ls".toList
    ["cd".toList, "/tmp".toList] ["ls".toList] (by decide) (by decide) (by decide)

/-! ## Builtin names with the wrong number of arguments -/

theorem slot_token (arr : Nat → Option CStr) (ts : List CStr) (j : Nat) (hj : j < ts.length) :
    Function.update (writeRun arr 0 ts) ts.length none j = some ts[j] := by
  rw [Function.update_noteq (by omega)]
  have := writeRun_at ts arr 0 j hj
  rw [Nat.zero_add] at this
  exact this

theorem slot_null (arr : Nat → Option CStr) (ts : List CStr) :
    Function.update (writeRun arr 0 ts) ts.length none ts.length = none := by
  rw [Function.update_same]

/-- The dispatcher goes on to the forks when `firstPipeArr[0]` is a string and neither builtin
test holds. -/
theorem dispatch_eq_spawn (env : Env) (sh : Shell) (v : Vectors) (arg0 : CStr)
    (h0 : v.firstPipeArr 0 = some arg0)
    (hcd : (arg0 = "chdir".toList ∨ arg0 = "cd".toList) → v.firstPipeArr 2 ≠ none)
    (hlim : arg0 = "limit".toList → v.firstPipeArr 1 = none ∨ v.firstPipeArr 2 ≠ none) :
    dispatch env sh v = spawn env sh v arg0 := by
  unfold dispatch
  rw [h0]
  simp only
  rw [if_neg (fun h => hcd h.1 h.2)]
  cases h1 : v.firstPipeArr 1 with
  | none => rfl
  | some arg1 =>
    simp only
    rw [if_neg]
    intro h
    rcases hlim h.1 with h' | h'
    · rw [h1] at h'; exact Option.noConfusion h'
    · exact h' h.2

/-- The forks of a line without `|` that is not a bare `history`, in full: when the fork
succeeds, the child that execs the first vector, the wait that reaps it and a second wait, which
reaps an older child if one is left and fails with `ECHILD` if not; when the fork fails, the
fork error message and a failure return. -/
theorem spawn_single_exec (env : Env) (sh : Shell) (v : Vectors) (arg0 : CStr)
    (hp : v.isPiped = false) (hh : arg0 = "history".toList → v.firstPipeArr 1 ≠ none) :
    spawn env sh v arg0
      = (if env.forkOne then
          { shell := if 0 < sh.children then { sh with children := sh.children - 1 }
                     else { sh with errno := ECHILD }
            trace := [.fork (.execFirst false arg0 (argvOf v.firstPipeArr)) true, .wait true,
              .wait (decide (0 < sh.children))]
            outcome := .returned .EXIT_SUCCESS }
        else
          { shell := { sh with errno := EAGAIN }
            trace := [.fork (.execFirst false arg0 (argvOf v.firstPipeArr)) false,
              .print .forkError]
            outcome := .returned .EXIT_FAILURE }) := by
  have hchild : ¬(v.isPiped = false ∧ arg0 = "history".toList ∧ v.firstPipeArr 1 = none) :=
    fun h => hh h.2.1 h.2.2
  unfold spawn
  simp only
  rw [if_neg hchild]
  simp only [hp]
  cases hf : env.forkOne with
  | false => simp
  | true =>
    simp only [Bool.true_eq_false, Bool.false_eq_true, if_false, if_true]
    by_cases hc : 0 < sh.children
    · simp [sysWait, hc]
    · have hz : sh.children = 0 := by omega
      simp [sysWait, hz]

/-- C8 (as stated, refuted). The pipe-free line `limit a a ... a` with 255 arguments (a builtin
name with the wrong number of arguments, 256 tokens in all) does not reach the forks: the
terminating null is written at index 256 of `firstPipeArr`, outside the array; with 600
arguments the token writes themselves leave the array at index 256. And when the fork fails, `history extra` spawns no child: the parent prints the fork error and returns
failure. -/
theorem wrong_arity_line_of_256_tokens_overflows :
    (tokens ("limit ".toList ++ manyTokens 255)).head? = some "limit".toList ∧
      (tokens ("limit ".toList ++ manyTokens 255)).length = 256 ∧
      (∀ t ∈ tokens ("limit ".toList ++ manyTokens 255), t ≠ pipeTok) ∧
      (runCommand Env.calm Shell.fresh ("limit ".toList ++ manyTokens 255) false).outcome
        = .outOfBounds false 256 ∧
      (runCommand Env.calm Shell.fresh ("limit ".toList ++ manyTokens 255) false).trace = [] ∧
      (tokens ("limit ".toList ++ manyTokens 600)).head? = some "limit".toList ∧
      (∀ t ∈ tokens ("limit ".toList ++ manyTokens 600), t ≠ pipeTok) ∧
      (runCommand Env.calm Shell.fresh ("limit ".toList ++ manyTokens 600) false).outcome
        = .outOfBounds false 256 ∧
      (runCommand Env.forkless Shell.fresh "history extra".toList false).trace
        = [.fork (.execFirst false "history".toList ["history".toList, "extra".toList]) false,
            .print .forkError] ∧
      (runCommand Env.forkless Shell.fresh "history extra".toList false).shell.children = 0 ∧
      (runCommand Env.forkless Shell.fresh "history extra".toList false).outcome
        = .returned .EXIT_FAILURE := by
  decide

/-- C8 (amended). For every pipe-free line of at most 255 tokens whose first token is `cd` or
`chdir` followed by two or more arguments, `limit` followed by no or by two or more arguments,
or `history` followed by one or more arguments, `runCommand` calls no builtin and forks no
history child. Its calls are exactly these: one `fork`, for a child that execs the first token
with the line's tokens as arguments, and then, when the fork succeeded, the wait that reaps the
child and a second wait (success is returned), or, when it failed, the fork error message
(failure is returned). The store it leaves is the one with the line recorded, changed only by
the second wait (an older child reaped, or `errno` set to `ECHILD`) or by the failed fork
(`errno`): working directory and limits are untouched. -/
theorem wrong_arity_builtin_takes_exec_path (env : Env) (sh : Shell) (line : CStr)
    (fifoPassed : Bool) (name : CStr) (args : List CStr)
    (hline : tokens line = name :: args)
    (hfree : ∀ t ∈ name :: args, t ≠ pipeTok)
    (hcap : (name :: args).length ≤ 255)
    (hwrong : ((name = "cd".toList ∨ name = "chdir".toList) ∧ 2 ≤ args.length) ∨
      (name = "limit".toList ∧ args.length ≠ 1) ∨
      (name = "history".toList ∧ 1 ≤ args.length)) :
    (runCommand env sh line fifoPassed).trace
        = (if env.forkOne then
            [.fork (.execFirst false name (name :: args)) true, .wait true,
              .wait (decide (0 < sh.children))]
          else [.fork (.execFirst false name (name :: args)) false, .print .forkError]) ∧
      (runCommand env sh line fifoPassed).outcome
        = .returned (if env.forkOne then .EXIT_SUCCESS else .EXIT_FAILURE) ∧
      (runCommand env sh line fifoPassed).shell
        = (if env.forkOne then
            (if 0 < sh.children then
              { recordHistory sh line with children := sh.children - 1 }
            else { recordHistory sh line with errno := ECHILD })
          else { recordHistory sh line with errno := EAGAIN }) := by
  have h0 : Function.update (writeRun env.stackFirst 0 (name :: args)) (name :: args).length none 0
      = some name := slot_token env.stackFirst (name :: args) 0 (by simp)
  have h1 : ∀ (h : 1 ≤ args.length),
      Function.update (writeRun env.stackFirst 0 (name :: args)) (name :: args).length none 1
        = some (args[0]) := fun h => slot_token env.stackFirst (name :: args) 1 (by simp; omega)
  have h1' : args.length = 0 →
      Function.update (writeRun env.stackFirst 0 (name :: args)) (name :: args).length none 1
        = none := by
    intro h
    have := slot_null env.stackFirst (name :: args)
    rw [List.length_cons, h] at this
    rw [List.length_cons, h]
    exact this
  have h2 : ∀ (h : 2 ≤ args.length),
      Function.update (writeRun env.stackFirst 0 (name :: args)) (name :: args).length none 2
        = some (args[1]) := fun h => slot_token env.stackFirst (name :: args) 2 (by simp; omega)
  have hdisp : dispatch env (recordHistory sh line)
      ⟨Function.update (writeRun env.stackFirst 0 (name :: args)) (name :: args).length none,
        env.stackSecond, false, (name :: args).length⟩
      = spawn env (recordHistory sh line)
          ⟨Function.update (writeRun env.stackFirst 0 (name :: args)) (name :: args).length none,
            env.stackSecond, false, (name :: args).length⟩ name := by
    apply dispatch_eq_spawn _ _ _ _ h0
    · intro hname
      rcases hwrong with ⟨_, hl⟩ | ⟨hn, _⟩ | ⟨hn, _⟩
      · dsimp only
        rw [h2 hl]; exact Option.noConfusion
      · rw [hn] at hname; exact absurd hname (by decide)
      · rw [hn] at hname; exact absurd hname (by decide)
    · intro hname
      rcases hwrong with ⟨hn, _⟩ | ⟨_, hl⟩ | ⟨hn, _⟩
      · rw [hname] at hn; exact absurd hn (by decide)
      · by_cases hz : args.length = 0
        · left; exact h1' hz
        · right
          dsimp only
          rw [h2 (by omega)]; exact Option.noConfusion
      · rw [hname] at hn; exact absurd hn (by decide)
  have hsp := spawn_single_exec env (recordHistory sh line)
    ⟨Function.update (writeRun env.stackFirst 0 (name :: args)) (name :: args).length none,
      env.stackSecond, false, (name :: args).length⟩ name rfl
    (by
      intro hname
      rcases hwrong with ⟨hn, _⟩ | ⟨hn, _⟩ | ⟨_, hl⟩
      · rw [hname] at hn; exact absurd hn (by decide)
      · rw [hname] at hn; exact absurd hn (by decide)
      · dsimp only
        rw [h1 hl]; exact Option.noConfusion)
  have hrun : runCommand env sh line fifoPassed
      = spawn env (recordHistory sh line)
          ⟨Function.update (writeRun env.stackFirst 0 (name :: args)) (name :: args).length none,
            env.stackSecond, false, (name :: args).length⟩ name := by
    unfold runCommand
    simp only
    rw [hline, tokenize_single env fifoPassed (name :: args) hfree hcap]
    exact hdisp
  rw [show argvOf (Vectors.firstPipeArr
      ⟨Function.update (writeRun env.stackFirst 0 (name :: args)) (name :: args).length none,
        env.stackSecond, false, (name :: args).length⟩) = name :: args from
    argvOf_terminated _ _ hcap] at hsp
  rw [hrun, hsp]
  have hch : (recordHistory sh line).children = sh.children := rfl
  rw [hch]
  cases env.forkOne with
  | false => exact ⟨rfl, rfl, rfl⟩
  | true => exact ⟨rfl, rfl, rfl⟩

theorem wrong_arity_builtin_takes_exec_path_witness :
    (runCommand Env.calm Shell.fresh "history extra".toList false).trace
        = (if Env.calm.forkOne then
            [.fork (.execFirst false "history".toList ["history".toList, "extra".toList]) true,
              .wait true, .wait (decide (0 < Shell.fresh.children))]
          else [.fork (.execFirst false "history".toList ["history".toList, "extra".toList])
            false, .print .forkError]) ∧
      (runCommand Env.calm Shell.fresh "history extra".toList false).outcome
        = .returned (if Env.calm.forkOne then .EXIT_SUCCESS else .EXIT_FAILURE) ∧
      (runCommand Env.calm Shell.fresh "history extra".toList false).shell
        = (if Env.calm.forkOne then
            (if 0 < Shell.fresh.children then
              { recordHistory Shell.fresh "history extra".toList with
                children := Shell.fresh.children - 1 }
            else { recordHistory Shell.fresh "history extra".toList with errno := ECHILD })
          else { recordHistory Shell.fresh "history extra".toList with errno := EAGAIN }) :=
  wrong_arity_builtin_takes_exec_path Env.calm Shell.fresh "history extra".toList false
    "history".toList ["extra".toList] (by decide) (by decide) (by decide)
    (Or.inr (Or.inr ⟨rfl, by decide⟩))

/-! ## Lines that `runCommand` comes back from -/

theorem spawn_returns (env : Env) (sh : Shell) (v : Vectors) (arg0 : CStr) :
    ∃ code, (spawn env sh v arg0).outcome = .returned code := by
  unfold spawn
  simp only
  split
  · exact ⟨_, rfl⟩
  · split
    · split <;> exact ⟨_, rfl⟩
    · exact ⟨_, rfl⟩

theorem dispatch_returns (env : Env) (sh : Shell) (v : Vectors) (arg0 : CStr)
    (h0 : v.firstPipeArr 0 = some arg0) :
    ∃ code, (dispatch env sh v).outcome = .returned code := by
  unfold dispatch
  rw [h0]
  simp only
  split
  · exact ⟨_, rfl⟩
  · split
    · split
      · exact ⟨_, rfl⟩
      · exact spawn_returns env sh v arg0
    · exact spawn_returns env sh v arg0

/-- A call of `runCommand` comes back with a return code exactly on the lines that `survives`
describes, whatever the store it starts from. -/
theorem runCommand_returned_iff (env : Env) (sh : Shell) (command : CStr) (fifoPassed : Bool) :
    (∃ code, (runCommand env sh command fifoPassed).outcome = .returned code)
      ↔ survives env fifoPassed command = true := by
  unfold runCommand survives
  simp only
  cases ht : tokenize env fifoPassed (tokens command) with
  | noFifo => simp
  | overflow s i => simp
  | done v =>
    simp only
    cases h0 : v.firstPipeArr 0 with
    | none => simp [dispatch, h0]
    | some arg0 =>
      simp only [Option.isSome_some, iff_true]
      exact dispatch_returns env _ v arg0 h0

/-- The shell has a store after a sequence of lines exactly when every line of it is one that
`runCommand` comes back from. -/
theorem runCommands_isSome_iff (fifoPassed : Bool) :
    ∀ (cmds : List (Env × CStr)) (sh : Shell),
      (runCommands fifoPassed sh cmds).isSome = true
        ↔ ∀ c ∈ cmds, survives c.1 fifoPassed c.2 = true := by
  intro cmds
  induction cmds with
  | nil => intro sh; simp [runCommands]
  | cons c rest ih =>
    intro sh
    obtain ⟨env, command⟩ := c
    have hiff := runCommand_returned_iff env sh command fifoPassed
    rw [runCommands]
    cases ho : (runCommand env sh command fifoPassed).outcome with
    | returned code =>
      have hs : survives env fifoPassed command = true := hiff.mp ⟨code, ho⟩
      simp only [List.mem_cons, forall_eq_or_imp, hs, true_and]
      exact ih _
    | nullDeref =>
      have hs : ¬ survives env fifoPassed command = true := by
        intro h
        obtain ⟨code, hc⟩ := hiff.mpr h
        rw [ho] at hc
        exact Outcome.noConfusion hc
      simp [hs]
    | outOfBounds s i =>
      have hs : ¬ survives env fifoPassed command = true := by
        intro h
        obtain ⟨code, hc⟩ := hiff.mpr h
        rw [ho] at hc
        exact Outcome.noConfusion hc
      simp [hs]

/-- Every pipe-free line of one to 255 tokens is a line that `runCommand` comes back from. -/
theorem survives_plain (env : Env) (fifoPassed : Bool) (command : CStr)
    (hfree : ∀ t ∈ tokens command, t ≠ pipeTok) (hpos : 1 ≤ (tokens command).length)
    (hcap : (tokens command).length ≤ 255) : survives env fifoPassed command = true := by
  unfold survives
  rw [tokenize_single env fifoPassed (tokens command) hfree hcap]
  simp only
  rw [slot_token env.stackFirst (tokens command) 0 (by omega)]
  rfl

/-! ## The models of `strtoul` and `strtok` -/

theorem strtoulReport_value_le (nptr : CStr) (neg : Bool) (v n : Nat) (rest : CStr) :
    (strtoulReport nptr neg v n rest).value ≤ ULONG_MAX := by
  unfold strtoulReport
  split
  · exact Nat.zero_le _
  · split
    · exact Nat.le_refl _
    · rename_i hv
      simp only [ULONG_MAX] at hv ⊢
      split <;> omega

theorem strtoul_value_le (arg : CStr) : (strtoul arg).value ≤ ULONG_MAX := by
  unfold strtoul
  exact strtoulReport_value_le _ _ _ _ _

theorem strtokAll_pending (cs : List Char) :
    ∀ (cur : List Char), cur ≠ [] →
      strtokAll cs cur
        = (cur.reverse ++ cs.takeWhile (fun x => x ≠ ' '))
            :: strtokAll ((cs.dropWhile (fun x => x ≠ ' ')).drop 1) [] := by
  induction cs with
  | nil =>
    intro cur hcur
    simp [strtokAll, hcur]
  | cons c cs ih =>
    intro cur hcur
    by_cases hc : c = ' '
    · subst hc
      simp [strtokAll, hcur]
    · rw [strtokAll, if_neg hc, ih (c :: cur) (by simp)]
      simp [hc]

theorem strtokAll_fresh (cs : List Char) :
    strtokAll cs []
      = match cs.dropWhile (fun c => c = ' ') with
        | [] => []
        | c :: rest => strtokAll rest [c] := by
  induction cs with
  | nil => simp [strtokAll]
  | cons c cs ih =>
    by_cases hc : c = ' '
    · subst hc
      simp only [strtokAll, if_true, List.dropWhile_cons, decide_True]
      exact ih
    · simp [strtokAll, hc]

/-- The token list of a line is what repeated calls of `strtok` return: nothing when `strtok`
returns the null pointer, else its token followed by the tokens of the rest. -/
theorem tokens_eq_strtok (s : List Char) :
    tokens s = match strtok s with
      | none => []
      | some (t, rest) => t :: tokens rest := by
  unfold tokens strtok
  rw [strtokAll_fresh]
  cases h : s.dropWhile (fun c => c = ' ') with
  | nil => rfl
  | cons c cs =>
    have hc : c ≠ ' ' := by
      have := List.head?_dropWhile_not (fun c => decide (c = ' ')) s
      rw [h] at this
      simpa using this
    simp only
    rw [strtokAll_pending cs [c] (by simp)]
    simp [hc]

/-- The tokens `strtok` yields are never empty and never contain the delimiter. -/
theorem strtokAll_tokens (cs : List Char) :
    ∀ (cur : List Char), ' ' ∉ cur → ∀ t ∈ strtokAll cs cur, t ≠ [] ∧ ' ' ∉ t := by
  induction cs with
  | nil =>
    intro cur hcur t ht
    unfold strtokAll at ht
    split at ht
    · simp at ht
    · rename_i hne
      simp only [List.mem_singleton] at ht
      subst ht
      exact ⟨by simpa using hne, by simpa using hcur⟩
  | cons c cs ih =>
    intro cur hcur t ht
    unfold strtokAll at ht
    split at ht
    · split at ht
      · exact ih [] (by simp) t ht
      · rename_i hne
        rcases List.mem_cons.mp ht with h | h
        · subst h
          exact ⟨by simpa using hne, by simpa using hcur⟩
        · exact ih [] (by simp) t h
    · rename_i hc
      refine ih (c :: cur) ?_ t ht
      intro hmem
      rcases List.mem_cons.mp hmem with h | h
      · exact hc h.symm
      · exact hcur h

theorem tokens_nonempty_spacefree (line : CStr) :
    ∀ t ∈ tokens line, t ≠ [] ∧ ' ' ∉ t :=
  strtokAll_tokens line [] (by simp)

/-! ## The `limit` builtin -/

theorem toRlim_toLong (v : Nat) (hv : v ≤ ULONG_MAX) : toRlim (toLong v) = v := by
  unfold toRlim toLong
  simp only [ULONG_MAX] at hv
  norm_num at hv ⊢
  split <;> omega

/-- When `errno` is not `ERANGE` on entry, `limit` accepts every string that `strtoul` converts
in full without overflow to a value not above the hard limit: it returns success, the soft limit
becomes that value and the hard limit keeps its value. -/
theorem limit_sets_soft_limit (sh : Shell) (arg : CStr) (hconv : (strtoul arg).converted = true)
    (hrest : (strtoul arg).rest = []) (hrange : (strtoul arg).erange = false)
    (herrno : sh.errno ≠ ERANGE) (hmax : (strtoul arg).value ≤ sh.rlimMax) :
    (limit sh arg).2.2 = .EXIT_SUCCESS ∧ (limit sh arg).1.rlimCur = (strtoul arg).value ∧
      (limit sh arg).1.rlimMax = sh.rlimMax := by
  unfold limit
  simp only [hconv, hrest, hrange, toRlim_toLong _ (strtoul_value_le arg)]
  simp [herrno, Nat.not_lt.mpr hmax]

/-- A string whose first character is neither white space, nor a sign, nor a decimal digit is
not converted by `strtoul`. -/
theorem strtoul_not_converted (c : Char) (cs : CStr) (hsp : isspace c = false)
    (hm : c ≠ '-') (hp : c ≠ '+') (hd : digitIn 10 c = none) :
    (strtoul (c :: cs)).converted = false := by
  have h0 : c ≠ '0' := by
    intro h; subst h; revert hd; decide
  have hd16 : ∀ b, b ≤ 10 → digitIn b c = none := by
    intro b hb
    unfold digitIn at hd ⊢
    cases hv : digitVal c with
    | none => rfl
    | some d =>
      rw [hv] at hd
      simp only at hd ⊢
      split at hd
      · exact Option.noConfusion hd
      · rw [if_neg (by omega)]
  unfold strtoul
  simp only [List.dropWhile_cons, hsp, Bool.false_eq_true, if_false, List.head?_cons,
    Option.some.injEq, hm, hp, or_self, List.tail_cons]
  cases cs with
  | nil => simp [h0, scanDigits, hd16 10 (by omega), strtoulReport]
  | cons x xs =>
    cases xs with
    | nil => simp [h0, scanDigits, hd16 10 (by omega), strtoulReport]
    | cons h r => simp [h0, scanDigits, hd16 10 (by omega), strtoulReport]

/-! ## Builtins on piped lines, the interrupt protocol, `limit`, blank lines -/

theorem changeDirectory_events (env : Env) (sh : Shell) (path : Option CStr) :
    (changeDirectory env sh path).2.1 = [] ∨
      (changeDirectory env sh path).2.1 = [.print .chdirFailed] := by
  unfold changeDirectory
  split
  · split
    · exact Or.inl rfl
    · split
      · exact Or.inl rfl
      · exact Or.inr rfl
  · split <;> exact Or.inl rfl

/-- With a FIFO, every line `cd p | stage` whose second stage fits has `changeDirectory(p)`
called by the shell process itself and nothing forked: the builtin test does not look at
`isPiped`. -/
theorem cd_before_pipe_runs_in_shell (env : Env) (sh : Shell) (line : CStr) (p : CStr)
    (b : List CStr) (hline : tokens line = "cd".toList :: p :: pipeTok :: b)
    (hp : p ≠ pipeTok) (hb : ∀ t ∈ b, t ≠ pipeTok) (hblen : b.length ≤ 255) :
    (runCommand env sh line true).outcome = .returned .EXIT_SUCCESS ∧
      ((runCommand env sh line true).trace = [.changeDirectory (some p)] ∨
        (runCommand env sh line true).trace
          = [.changeDirectory (some p), .print .chdirFailed]) := by
  obtain ⟨v, h1, _, _, h4⟩ := tokenize_piped env ["cd".toList, p] [b] (by simp)
    (by
      intro t ht
      simp only [List.mem_cons, List.mem_singleton, List.not_mem_nil, or_false] at ht
      rcases ht with h | h
      · rw [h]; decide
      · rw [h]; exact hp)
    (by simp) (by simpa using hb) (by simpa using hblen)
  have hfirst := h4 rfl
  have h0 : v.firstPipeArr 0 = some "cd".toList := by
    rw [hfirst]; exact slot_token env.stackFirst ["cd".toList, p] 0 (by simp)
  have hs1 : v.firstPipeArr 1 = some p := by
    rw [hfirst]; exact slot_token env.stackFirst ["cd".toList, p] 1 (by simp)
  have hs2 : v.firstPipeArr 2 = none := by
    rw [hfirst]; exact slot_null env.stackFirst ["cd".toList, p]
  have hrun : runCommand env sh line true
      = ⟨(changeDirectory env (recordHistory sh line) (some p)).1,
          .changeDirectory (some p) :: (changeDirectory env (recordHistory sh line) (some p)).2.1,
          .returned .EXIT_SUCCESS⟩ := by
    unfold runCommand
    simp only
    rw [hline]
    rw [joinStages, List.cons_append, List.cons_append, List.nil_append] at h1
    rw [h1]
    simp only [dispatch, h0, hs1, hs2, and_true]
    rw [if_pos (Or.inr trivial)]
  rw [hrun]
  refine ⟨rfl, ?_⟩
  rcases changeDirectory_events env (recordHistory sh line) (some p) with h | h
  · left; simp only [h]
  · right; simp only [h]

theorem tokens_spaces (n : Nat) : tokens (List.replicate n ' ') = [] := by
  unfold tokens
  induction n with
  | zero => rfl
  | succ k ih => rw [List.replicate_succ, strtokAll]; simpa using ih

/-- A line without any token, such as a line of spaces, makes `runCommand` hand the null pointer
in `firstPipeArr[0]` to `strcmp`, whatever the surroundings. -/
theorem runCommand_without_token (env : Env) (sh : Shell) (line : CStr) (fifoPassed : Bool)
    (h : tokens line = []) : (runCommand env sh line fifoPassed).outcome = .nullDeref := by
  unfold runCommand
  simp only
  rw [h, tokenize_single env fifoPassed [] (by simp) (by simp)]
  simp [dispatch, writeRun]

/-- C3 (the code at the failing inputs). With a FIFO configured, `cd /tmp | ls` makes
`runCommand` call `changeDirectory("/tmp")` in the shell process, change the working directory
and return without forking; `limit 4096 | ls` likewise calls `limit("4096")` and lowers the soft
limit: the builtin tests of lines 197-204 do not look at `isPiped`. -/
theorem builtin_runs_on_piped_line :
    pipeTok ∈ tokens "cd /tmp | ls".toList ∧
      (runCommand Env.calm Shell.fresh "cd /tmp | ls".toList true).trace
        = [.changeDirectory (some "/tmp".toList)] ∧
      Shell.fresh.cwd = "/".toList ∧
      (runCommand Env.calm Shell.fresh "cd /tmp | ls".toList true).shell.cwd = "/tmp".toList ∧
      (runCommand Env.calm Shell.fresh "cd /tmp | ls".toList true).outcome
        = .returned .EXIT_SUCCESS ∧
      (runCommand Env.calm Shell.fresh "limit 4096 | ls".toList true).trace
        = [.limit "4096".toList] ∧
      Shell.fresh.rlimCur = RLIM_INFINITY ∧
      (runCommand Env.calm Shell.fresh "limit 4096 | ls".toList true).shell.rlimCur = 4096 := by
  decide

/-- While the confirmation prompt is outstanding the handler is not run again: a second SIGINT
changes nothing. -/
theorem deliverSigint_twice (sh : Shell) :
    (deliverSigint (deliverSigint sh).1).1 = (deliverSigint sh).1 ∧
      (sh.sigintArmed = true → (deliverSigint sh).1.interrupt = true) := by
  unfold deliverSigint interruptHandler
  cases h : sh.sigintArmed <;> simp [h]

/-- C5. While the interrupt flag is set, an iteration of the loop of `main` never calls
`runCommand` and leaves the history ring as it was; on `y` or `Y` it breaks out of the loop; on
any other line, the empty one included, it clears the flag and re-arms the handler, and goes on
to the loop test; the next non-empty line read with the flag still clear is then handed to
`runCommand` and stored in the ring slot at `historyCount`. -/
theorem pending_interrupt_line_is_an_answer (env env' : Env) (fifoPath : Option CStr)
    (sh : Shell) (line : CStr) (atEnd : Bool) (hint : sh.interrupt = true) :
    (mainStep env fifoPath sh line atEnd).ran = none ∧
      (mainStep env fifoPath sh line atEnd).shell.history = sh.history ∧
      (mainStep env fifoPath sh line atEnd).shell.historyCount = sh.historyCount ∧
      ((line = ['y'] ∨ line = ['Y']) → (mainStep env fifoPath sh line atEnd).control = .quit) ∧
      (¬(line = ['y'] ∨ line = ['Y']) →
        (mainStep env fifoPath sh line atEnd).shell.interrupt = false ∧
        (mainStep env fifoPath sh line atEnd).shell.sigintArmed = true ∧
        (mainStep env fifoPath sh line atEnd).control
          = (if atEnd then .endOfInput else .next) ∧
        ∀ (next : CStr) (atEnd' : Bool), next ≠ [] →
          (mainStep env' fifoPath (mainStep env fifoPath sh line atEnd).shell next atEnd').ran
            = some (runCommand env' (mainStep env fifoPath sh line atEnd).shell next
                fifoPath.isSome) ∧
          (mainStep env' fifoPath (mainStep env fifoPath sh line atEnd).shell next
            atEnd').shell.history sh.historyCount = some next) := by
  have hfirst : ¬(line.length > 0 ∧ sh.interrupt = false) := by
    rw [hint]; intro h; exact Bool.noConfusion h.2
  by_cases hy : line = ['y'] ∨ line = ['Y']
  · have hstep : mainStep env fifoPath sh line atEnd = ⟨sh, none, .quit⟩ := by
      unfold mainStep
      rw [if_neg hfirst, if_pos hint, if_pos hy]
    rw [hstep]
    exact ⟨rfl, rfl, rfl, fun _ => rfl, fun h => absurd hy h⟩
  · have hstep : mainStep env fifoPath sh line atEnd
        = ⟨{ sh with sigintArmed := true, interrupt := false }, none,
            if atEnd then .endOfInput else .next⟩ := by
      unfold mainStep
      rw [if_neg hfirst, if_pos hint, if_neg hy]
    rw [hstep]
    refine ⟨rfl, rfl, rfl, fun h => absurd h hy, fun _ => ⟨rfl, rfl, rfl, ?_⟩⟩
    intro next atEnd' hnext
    have hlen : next.length > 0 := List.length_pos.mpr hnext
    have hring := runCommand_ring env' { sh with sigintArmed := true, interrupt := false } next
      fifoPath.isSome
    have hstored : (runCommand env' { sh with sigintArmed := true, interrupt := false } next
        fifoPath.isSome).shell.history sh.historyCount = some next := by
      rw [hring.1]
      simp [recordHistory]
    unfold mainStep
    rw [if_pos ⟨hlen, rfl⟩]
    simp only
    split <;> exact ⟨rfl, hstored⟩

theorem pending_interrupt_line_is_an_answer_witness :
    (mainStep Env.calm none (interruptHandler Shell.fresh).1 ['n'] false).ran = none ∧
      (mainStep Env.calm none (interruptHandler Shell.fresh).1 ['n'] false).shell.history
        = (interruptHandler Shell.fresh).1.history ∧
      (mainStep Env.calm none (interruptHandler Shell.fresh).1 ['n'] false).shell.historyCount
        = (interruptHandler Shell.fresh).1.historyCount ∧
      ((['n'] = ['y'] ∨ ['n'] = ['Y']) →
        (mainStep Env.calm none (interruptHandler Shell.fresh).1 ['n'] false).control = .quit) ∧
      (¬(['n'] = ['y'] ∨ ['n'] = ['Y']) →
        (mainStep Env.calm none (interruptHandler Shell.fresh).1 ['n'] false).shell.interrupt
          = false ∧
        (mainStep Env.calm none (interruptHandler Shell.fresh).1 ['n'] false).shell.sigintArmed
          = true ∧
        (mainStep Env.calm none (interruptHandler Shell.fresh).1 ['n'] false).control
          = (if false then .endOfInput else .next) ∧
        ∀ (next : CStr) (atEnd' : Bool), next ≠ [] →
          (mainStep Env.calm none
              (mainStep Env.calm none (interruptHandler Shell.fresh).1 ['n'] false).shell next
              atEnd').ran
            = some (runCommand Env.calm
                (mainStep Env.calm none (interruptHandler Shell.fresh).1 ['n'] false).shell next
                (none : Option CStr).isSome) ∧
          (mainStep Env.calm none
              (mainStep Env.calm none (interruptHandler Shell.fresh).1 ['n'] false).shell next
              atEnd').shell.history (interruptHandler Shell.fresh).1.historyCount = some next) :=
  pending_interrupt_line_is_an_answer Env.calm Env.calm none (interruptHandler Shell.fresh).1
    ['n'] false rfl

/-- C6 (as stated, refuted). `limit` does not reject the signed string `-1`: `strtoul` converts
it in full to `ULONG_MAX` without `ERANGE`, and with the hard limit at `RLIM_INFINITY` the call
returns success and moves the soft limit from 4096 to `2^64 - 1`. -/
theorem limit_accepts_minus_one :
    strtoul "-1".toList = { value := ULONG_MAX, rest := [], converted := true, erange := false } ∧
      (limit (Shell.init ['/'] 4096 RLIM_INFINITY) "-1".toList).2.2 = .EXIT_SUCCESS ∧
      (limit (Shell.init ['/'] 4096 RLIM_INFINITY) "-1".toList).1.rlimCur = 2 ^ 64 - 1 ∧
      (limit (Shell.init ['/'] 4096 RLIM_INFINITY) "-1".toList).1.rlimCur
        ≠ (Shell.init ['/'] 4096 RLIM_INFINITY).rlimCur := by
  decide

/-- C6 (amended). For every argument string that `strtoul` does not take in full as a number,
because it converts nothing (non-numeric), stops before the end of the string (trailing
garbage) or reports `ERANGE` (out of the unsigned range), `limit` returns failure and changes
neither the soft nor the hard data-segment limit. -/
theorem limit_rejects_unparsed (sh : Shell) (arg : CStr)
    (h : (strtoul arg).converted = false ∨ (strtoul arg).rest ≠ [] ∨
      (strtoul arg).erange = true) :
    (limit sh arg).2.2 = .EXIT_FAILURE ∧ (limit sh arg).1.rlimCur = sh.rlimCur ∧
      (limit sh arg).1.rlimMax = sh.rlimMax := by
  have hcond : (strtoul arg).converted = false ∨ (strtoul arg).rest ≠ [] ∨
      (if (strtoul arg).erange then { sh with errno := ERANGE } else sh).errno = ERANGE := by
    rcases h with h | h | h
    · exact Or.inl h
    · exact Or.inr (Or.inl h)
    · right; right; rw [h]; rfl
  unfold limit
  simp only
  rw [if_pos hcond]
  refine ⟨rfl, ?_, ?_⟩ <;> (simp only; split <;> rfl)

theorem limit_rejects_unparsed_witness :
    ((limit Shell.fresh "abc".toList).2.2 = .EXIT_FAILURE ∧
        (limit Shell.fresh "abc".toList).1.rlimCur = Shell.fresh.rlimCur ∧
        (limit Shell.fresh "abc".toList).1.rlimMax = Shell.fresh.rlimMax) ∧
      ((limit Shell.fresh "12abc".toList).2.2 = .EXIT_FAILURE ∧
        (limit Shell.fresh "12abc".toList).1.rlimCur = Shell.fresh.rlimCur ∧
        (limit Shell.fresh "12abc".toList).1.rlimMax = Shell.fresh.rlimMax) ∧
      ((limit Shell.fresh "99999999999999999999".toList).2.2 = .EXIT_FAILURE ∧
        (limit Shell.fresh "99999999999999999999".toList).1.rlimCur = Shell.fresh.rlimCur ∧
        (limit Shell.fresh "99999999999999999999".toList).1.rlimMax = Shell.fresh.rlimMax) :=
  ⟨limit_rejects_unparsed Shell.fresh "abc".toList (Or.inl (by decide)),
    limit_rejects_unparsed Shell.fresh "12abc".toList (Or.inr (Or.inl (by decide))),
    limit_rejects_unparsed Shell.fresh "99999999999999999999".toList
      (Or.inr (Or.inr (by decide)))⟩

/-- C7 (the code at the failing input). After the out-of-range `limit 99999999999999999999`
has left `errno` at `ERANGE`, the valid `limit 4096` (4096 is below the unlimited hard limit) is
rejected: `limit` returns failure and the soft limit stays where it was, although on a fresh
shell the same call succeeds and sets the soft limit to 4096. -/
theorem stale_erange_rejects_valid_limit :
    (runCommand Env.calm Shell.fresh "limit 99999999999999999999".toList false).shell.errno
        = ERANGE ∧
      (runCommand Env.calm Shell.fresh "limit 99999999999999999999".toList false).shell.rlimMax
        = RLIM_INFINITY ∧
      strtoul "4096".toList = { value := 4096, rest := [], converted := true, erange := false } ∧
      (limit (runCommand Env.calm Shell.fresh "limit 99999999999999999999".toList false).shell
          "4096".toList).2.2 = .EXIT_FAILURE ∧
      (runCommand Env.calm
          (runCommand Env.calm Shell.fresh "limit 99999999999999999999".toList false).shell
          "limit 4096".toList false).trace = [.limit "4096".toList,
            .print (.limitInvalid "4096".toList)] ∧
      (runCommand Env.calm
          (runCommand Env.calm Shell.fresh "limit 99999999999999999999".toList false).shell
          "limit 4096".toList false).shell.rlimCur = RLIM_INFINITY ∧
      (limit Shell.fresh "4096".toList).2.2 = .EXIT_SUCCESS ∧
      (limit Shell.fresh "4096".toList).1.rlimCur = 4096 := by
  decide

/-- C10 (the code at the failing inputs). The line made of one space has length 1, so `main`
hands it to `runCommand`; `strtok` yields no token, `firstPipeArr[0]` is the null pointer and the
first `strcmp` of the dispatcher reads it. With a FIFO the line `| ls` does the same. -/
theorem blank_line_reaches_strcmp_with_null :
    tokens [' '] = [] ∧
      (tokenize Env.calm false (tokens [' '])).firstArgv = some [] ∧
      (runCommand Env.calm Shell.fresh [' '] false).outcome = .nullDeref ∧
      (mainStep Env.calm none Shell.fresh [' '] false).control = .crashed ∧
      (tokenize Env.calm true (tokens "| ls".toList)).firstArgv = some [] ∧
      (runCommand Env.calm Shell.fresh "| ls".toList true).outcome = .nullDeref ∧
      (mainStep Env.calm (some "/tmp/fifo".toList) Shell.fresh "| ls".toList false).control
        = .crashed := by
  decide

end Rayshell
